import Mathlib

/-
Verification development for the currency-bot repository.

Shallow embedding of the economy engine:
  * config.py      - the Config constants (all literal in the source);
  * leveling.py    - LevelingSystem: level formulas, xp gain, level-up rewards,
                     message processing;
  * db_manager.py  - DatabaseManager: per-user account records plus an
                     append-only transaction log, modelled as explicit state
                     passing over a DBState value;
  * commands.py    - the slash-command layer (pay, setlevel).

Python floats are modelled exactly: CPython uses IEEE-754 binary64 with
round-to-nearest-even, and math.sqrt is correctly rounded.  Doubles are
represented as dyadic values m * 2 ^ k with m a natural mantissa, and the
rounding of a nonnegative fraction a / b to 53 significant bits, as well as
the correctly rounded square root, are implemented below over Nat / Int
arithmetic (normal range only: the values reached by the leveling formulas
never overflow or go subnormal).  Timestamps are modelled as integers
(seconds); datetime subtraction compared against the cooldown becomes
integer subtraction, which is the only use the source makes of time.
-/

namespace CurrencyBot

/-! ### Binary64 model: kernel-friendly integer square root and log2 -/

/-- Structural-fuel floor of log2; with fuel at least the argument this is
the usual base-2 logarithm (the fuel only bounds the recursion depth). -/
def log2Fuel : Nat → Nat → Nat
  | 0, _ => 0
  | f+1, n => if 2 ≤ n then log2Fuel f (n / 2) + 1 else 0

/-- Floor of log2 for positive naturals. -/
def flog2 (n : Nat) : Nat := log2Fuel n n

/-- Structural-fuel integer square root (digit-by-digit in base 4). -/
def isqrtFuel : Nat → Nat → Nat
  | 0, _ => 0
  | f+1, n =>
    if n < 2 then n
    else
      let r := 2 * isqrtFuel f (n / 4)
      if (r+1)*(r+1) ≤ n then r+1 else r

/-- Integer square root: the floor of the real square root. -/
def isqrt (n : Nat) : Nat := isqrtFuel n n

/-- Round the nonnegative fraction p / r to the nearest integer, ties to
even: the rounding step of IEEE-754 round-to-nearest-even. -/
def rne (p r : Nat) : Nat :=
  let m := p / r
  let rem := p % r
  if 2 * rem < r then m
  else if r < 2 * rem then m + 1
  else if m % 2 = 0 then m else m + 1

/-- Floor of log2 of the positive fraction a / b, as an integer. -/
def fracLog2 (a b : Nat) : Int :=
  let d : Int := (flog2 a : Int) - (flog2 b : Int)
  if 0 ≤ d then (if 2 ^ d.toNat * b ≤ a then d else d - 1)
  else (if b ≤ 2 ^ (-d).toNat * a then d else d - 1)

/-- A binary64 value in the normal range: the dyadic rational m * 2 ^ k. -/
structure Dyadic where
  m : Nat
  k : Int
deriving DecidableEq

/-- The rational value denoted by a dyadic. -/
def Dyadic.val (x : Dyadic) : ℚ := (x.m : ℚ) * (2 : ℚ) ^ x.k

/-- Round the nonnegative fraction a / b to binary64 (53-bit mantissa,
round to nearest, ties to even).  This is the value CPython produces for
the true division a / b of nonnegative integers. -/
def roundFrac (a b : Nat) : Dyadic :=
  if a = 0 then ⟨0, 0⟩
  else
    let e := fracLog2 a b
    let p : Nat := if e ≤ 52 then a * 2 ^ (52 - e).toNat else a
    let r : Nat := if e ≤ 52 then b else b * 2 ^ (e - 52).toNat
    ⟨rne p r, e - 52⟩

/-- Correctly rounded square root of a nonnegative binary64 value, as
computed by math.sqrt: the true square root is bracketed at mantissa scale
and rounded to nearest (ties to even). -/
def sqrtDyadic (x : Dyadic) : Dyadic :=
  if x.m = 0 then ⟨0, 0⟩
  else
    let t : Int := (flog2 x.m : Int) + x.k
    let e2 := Int.fdiv t 2
    let j : Int := x.k + 104 - 2 * e2
    let am : Nat := if 0 ≤ j then x.m * 2 ^ j.toNat else x.m
    let ad : Nat := if 0 ≤ j then 1 else 2 ^ (-j).toNat
    let mf := isqrt (am / ad)
    let c := (2 * mf + 1) * (2 * mf + 1) * ad
    let m2 := if c < 4 * am then mf + 1
              else if 4 * am = c then (if mf % 2 = 0 then mf else mf + 1)
              else mf
    ⟨m2, e2 - 52⟩

/-- Truncation of a nonnegative binary64 value to an integer: int(...). -/
def dyadicFloor (x : Dyadic) : Nat :=
  if 0 ≤ x.k then x.m * 2 ^ x.k.toNat else x.m / 2 ^ (-x.k).toNat

/-! ### config.py : the Config constants used by the economy engine -/

namespace Config

def BASE_XP_PER_MESSAGE : Int := 15
def MAX_LENGTH_BONUS : Int := 10
def RANDOM_XP_BONUS : Int := 5
def XP_COOLDOWN : Int := 60
def XP_PER_LEVEL_BASE : Nat := 100
def BASE_COINS_PER_LEVEL : Int := 50
def MIN_TRANSACTION : Int := 1
def MAX_LEADERBOARD_ENTRIES : Nat := 10

end Config

/-! ### leveling.py : the pure level formulas -/

/-- LevelingSystem.calculate_level_from_xp:
`if xp < 0: return 1; return max(1, int(math.sqrt(xp / BASE)) + 1)`.
The float division xp / 100 and math.sqrt are modelled bit-exactly. -/
def calculate_level_from_xp (xp : Int) : Int :=
  if xp < 0 then 1
  else max 1 ((dyadicFloor (sqrtDyadic (roundFrac xp.toNat Config.XP_PER_LEVEL_BASE)) : Int) + 1)

/-- LevelingSystem.calculate_xp_for_level:
`if level <= 1: return 0; return int(((level - 1) ** 2) * BASE)`
(exact integer arithmetic in Python). -/
def calculate_xp_for_level (level : Int) : Int :=
  if level ≤ 1 then 0 else (level - 1) * (level - 1) * (Config.XP_PER_LEVEL_BASE : Int)

/-- LevelingSystem.calculate_xp_gain.  The message only enters through
len(message.content); the random.randint(0, RANDOM_XP_BONUS) draw is the
random_bonus parameter. -/
def calculate_xp_gain (message_length : Nat) (random_bonus : Int) : Int :=
  let base_xp := Config.BASE_XP_PER_MESSAGE
  let length_bonus : Int := min ((message_length : Int) / 10) Config.MAX_LENGTH_BONUS
  let total_xp := base_xp + length_bonus + random_bonus
  max 1 total_xp

/-- LevelingSystem.calculate_level_reward. -/
def calculate_level_reward (level : Int) : Int :=
  let base_reward := Config.BASE_COINS_PER_LEVEL
  if level % 10 = 0 then base_reward * 3
  else if level % 5 = 0 then base_reward * 2
  else base_reward

/-- The reward loop in LevelingSystem.handle_level_up:
`for level in range(old_level + 1, new_level + 1): coin_reward += ...`. -/
def levelUpReward (old_level new_level : Int) : Int :=
  (List.range (new_level - old_level).toNat).foldl
    (fun acc (i : Nat) => acc + calculate_level_reward (old_level + 1 + (i : Int))) 0

/-! ### models.py / db_manager.py : accounts, transactions, DatabaseManager -/

/-- One row of the users table (models.py User).  The created_at and
updated_at audit timestamps carry no economic state and are omitted. -/
structure UserRec where
  coins : Int
  xp : Int
  level : Int
  total_messages : Int
  last_xp_gain : Option Int
deriving DecidableEq

/-- One row of the transactions table (models.py Transaction).  The free
text description carries no economic state and is omitted. -/
structure TxRec where
  from_user_id : Option Int
  to_user_id : Option Int
  amount : Int
  transaction_type : String
deriving DecidableEq

/-- The whole store: the users table (keyed by user_id) and the append-only
transaction log. -/
structure DBState where
  users : List (Int × UserRec)
  transactions : List TxRec
deriving DecidableEq

/-- The defaults a lazily created account starts with. -/
def newUser : UserRec := ⟨0, 0, 1, 0, none⟩

def emptyDB : DBState := ⟨[], []⟩

/-- Row lookup by user_id (session.query(User).filter_by(user_id=...)). -/
def usersLookup : List (Int × UserRec) → Int → Option UserRec
  | [], _ => none
  | (k, v) :: rest, uid => if k = uid then some v else usersLookup rest uid

/-- Overwrite the row of uid (a mutation of the mapped ORM object). -/
def setUser : List (Int × UserRec) → Int → UserRec → List (Int × UserRec)
  | [], _, _ => []
  | (k, v) :: rest, uid, u => if k = uid then (k, u) :: rest else (k, v) :: setUser rest uid u

/-- DatabaseManager.get_user_data: return the row, creating it with the
defaults when absent. -/
def get_user_data (s : DBState) (uid : Int) : UserRec × DBState :=
  match usersLookup s.users uid with
  | some u => (u, s)
  | none => (newUser, { s with users := s.users ++ [(uid, newUser)] })

/-- DatabaseManager.get_coins: balance read, lazily creating the account. -/
def get_coins (s : DBState) (uid : Int) : Int × DBState :=
  match usersLookup s.users uid with
  | some u => (u.coins, s)
  | none => (0, (get_user_data s uid).2)

/-- DatabaseManager.get_xp: xp read, lazily creating the account. -/
def get_xp (s : DBState) (uid : Int) : Int × DBState :=
  match usersLookup s.users uid with
  | some u => (u.xp, s)
  | none => (0, (get_user_data s uid).2)

/-- DatabaseManager.get_level: level read, lazily creating the account. -/
def get_level (s : DBState) (uid : Int) : Int × DBState :=
  match usersLookup s.users uid with
  | some u => (u.level, s)
  | none => (1, (get_user_data s uid).2)

/-- DatabaseManager.add_coins: unconditional credit plus one transaction
record from=None, to=uid, in one commit. -/
def add_coins (s : DBState) (uid amount : Int) (transaction_type : String) : Int × DBState :=
  let gd := get_user_data s uid
  let u := gd.1
  let s1 := gd.2
  let u2 : UserRec := { u with coins := u.coins + amount }
  (u2.coins,
   { users := setUser s1.users uid u2,
     transactions := s1.transactions ++ [⟨none, some uid, amount, transaction_type⟩] })

/-- DatabaseManager.remove_coins: `if not user or user.coins < amount:
return False`, otherwise debit plus one transaction record from=uid,
to=None, amount=-amount, in one commit. -/
def remove_coins (s : DBState) (uid amount : Int) (transaction_type : String) : Bool × DBState :=
  match usersLookup s.users uid with
  | none => (false, s)
  | some u =>
    if u.coins < amount then (false, s)
    else
      (true,
       { users := setUser s.users uid { u with coins := u.coins - amount },
         transactions := s.transactions ++ [⟨some uid, none, -amount, transaction_type⟩] })

/-- DatabaseManager.set_coins: absolute set plus one admin_set transaction
carrying the signed difference. -/
def set_coins (s : DBState) (uid amount : Int) : DBState :=
  let gd := get_user_data s uid
  let u := gd.1
  let s1 := gd.2
  let diff := amount - u.coins
  { users := setUser s1.users uid { u with coins := amount },
    transactions := s1.transactions ++
      [⟨if 0 < diff then none else some uid, if 0 < diff then some uid else none,
        diff, "admin_set"⟩] }

/-- DatabaseManager.add_xp: increment xp and total_messages and stamp
last_xp_gain with the current time; no transaction record. -/
def add_xp (s : DBState) (uid amount now : Int) : Int × DBState :=
  let gd := get_user_data s uid
  let u := gd.1
  let s1 := gd.2
  let u2 : UserRec :=
    { u with xp := u.xp + amount, total_messages := u.total_messages + 1,
             last_xp_gain := some now }
  (u2.xp, { s1 with users := setUser s1.users uid u2 })

/-- DatabaseManager.set_level: store the level field only; xp untouched. -/
def set_level (s : DBState) (uid level : Int) : DBState :=
  let gd := get_user_data s uid
  let u := gd.1
  let s1 := gd.2
  { s1 with users := setUser s1.users uid { u with level := level } }

/-- DatabaseManager.can_gain_xp: pure read; true when the user or the
last_xp_gain stamp is absent, or the elapsed time reaches the cooldown. -/
def can_gain_xp (s : DBState) (uid : Int) (cooldown_seconds now : Int) : Bool :=
  match usersLookup s.users uid with
  | none => true
  | some u =>
    match u.last_xp_gain with
    | none => true
    | some t => decide (cooldown_seconds ≤ now - t)

/-- Coin update on an existing row (the ORM object mutation inside
transfer_coins); absent users are untouched. -/
def updCoins (s : DBState) (uid : Int) (f : Int → Int) : DBState :=
  match usersLookup s.users uid with
  | none => s
  | some u => { s with users := setUser s.users uid { u with coins := f u.coins } }

/-- DatabaseManager.transfer_coins.  The sender and receiver rows are the
same ORM object when the ids coincide (SQLAlchemy identity map), which the
sequential coin updates reproduce.  The receiver is lazily created after
the balance check; one user_pay transaction is recorded in the commit. -/
def transfer_coins (s : DBState) (from_user_id to_user_id amount : Int) : Bool × DBState :=
  match usersLookup s.users from_user_id with
  | none => (false, s)
  | some fu =>
    if fu.coins < amount then (false, s)
    else
      let s1 := if (usersLookup s.users to_user_id).isSome then s
                else (get_user_data s to_user_id).2
      let s2 := updCoins s1 from_user_id (fun c => c - amount)
      let s3 := updCoins s2 to_user_id (fun c => c + amount)
      (true,
       { s3 with transactions :=
          s3.transactions ++ [⟨some from_user_id, some to_user_id, amount, "user_pay"⟩] })

/-- One leaderboard row as returned by DatabaseManager.get_leaderboard. -/
structure LBEntry where
  user_id : Int
  coins : Int
  level : Int
  xp : Int
  total_messages : Int
deriving DecidableEq

/-- Descending, stable comparison used by the leaderboard query: by coins,
or by the pair (level, xp) when sorting by level. -/
def lbBefore (sort_by : String) (a b : LBEntry) : Bool :=
  if sort_by = "level" then
    decide (b.level < a.level) || (decide (a.level = b.level) && decide (b.xp ≤ a.xp))
  else decide (b.coins ≤ a.coins)

def lbInsert (le : LBEntry → LBEntry → Bool) (x : LBEntry) : List LBEntry → List LBEntry
  | [] => [x]
  | y :: ys => if le x y then x :: y :: ys else y :: lbInsert le x ys

def lbSort (le : LBEntry → LBEntry → Bool) : List LBEntry → List LBEntry
  | [] => []
  | x :: xs => lbInsert le x (lbSort le xs)

/-- A single successful leaderboard query: order the user rows and truncate
to the limit. -/
def lbQuery (s : DBState) (limit : Nat) (sort_by : String) : List LBEntry :=
  (lbSort (lbBefore sort_by)
    (s.users.map (fun p => LBEntry.mk p.1 p.2.coins p.2.level p.2.xp p.2.total_messages))).take limit

/-- DatabaseManager.get_leaderboard: `for attempt in range(3)` retries the
query on storage failure; when the third attempt also fails it returns the
empty list.  The fault schedule fails says which attempts raise. -/
def get_leaderboard (fails : Nat → Bool) (s : DBState) (limit : Nat) (sort_by : String) :
    List LBEntry :=
  if fails 0 = false then lbQuery s limit sort_by
  else if fails 1 = false then lbQuery s limit sort_by
  else if fails 2 = false then lbQuery s limit sort_by
  else []

/-- How many attempts the retry loop makes under a fault schedule. -/
def lbAttempts (fails : Nat → Bool) : Nat :=
  if fails 0 = false then 1 else if fails 1 = false then 2 else 3

/-! ### leveling.py : the stateful message-processing pipeline -/

/-- LevelingSystem.handle_level_up: sum the rewards for every level crossed
and credit them as one level_up transaction (the notification is I/O and
carries no economic state). -/
def handle_level_up (s : DBState) (uid : Int) (old_level new_level : Int) : DBState :=
  let coin_reward := levelUpReward old_level new_level
  if 0 < coin_reward then (add_coins s uid coin_reward "level_up").2 else s

/-- LevelingSystem.process_message: cooldown gate, xp-gain computation,
xp application, level recomputation and storage, level-up handling. -/
def process_message (s : DBState) (uid : Int) (message_length : Nat) (random_bonus now : Int) :
    DBState :=
  if can_gain_xp s uid Config.XP_COOLDOWN now = false then s
  else
    let xp_gain := calculate_xp_gain message_length random_bonus
    if xp_gain ≤ 0 then s
    else
      let gx := get_xp s uid
      let old_level := calculate_level_from_xp gx.1
      let ax := add_xp gx.2 uid xp_gain now
      let new_level := calculate_level_from_xp ax.1
      let s2 := set_level ax.2 uid new_level
      if old_level < new_level then handle_level_up s2 uid old_level new_level else s2

/-- Whether a message-processing event reaches the xp grant (the add_xp
call): the cooldown gate passes and the computed gain is positive. -/
def xpGrant (s : DBState) (uid : Int) (message_length : Nat) (random_bonus now : Int) : Bool :=
  can_gain_xp s uid Config.XP_COOLDOWN now &&
    decide (0 < calculate_xp_gain message_length random_bonus)

/-! ### commands.py : the command layer -/

inductive PayOutcome where
  | selfPayment
  | botRecipient
  | belowMinimum
  | insufficientFunds
  | storeFailed
  | paid
deriving DecidableEq

/-- The pay slash command: validation chain (self-payment, bot recipient,
minimum amount), balance pre-check, then the store transfer. -/
def cmd_pay (s : DBState) (sender_id receiver_id : Int) (receiver_is_bot : Bool)
    (amount : Int) : PayOutcome × DBState :=
  if sender_id = receiver_id then (.selfPayment, s)
  else if receiver_is_bot then (.botRecipient, s)
  else if amount < Config.MIN_TRANSACTION then (.belowMinimum, s)
  else
    let gc := get_coins s sender_id
    if gc.1 < amount then (.insufficientFunds, gc.2)
    else
      let tr := transfer_coins gc.2 sender_id receiver_id amount
      if tr.1 then (.paid, tr.2) else (.storeFailed, tr.2)

inductive SetLevelOutcome where
  | accessDenied
  | invalidLevel
  | crashed
deriving DecidableEq

/-- The setlevel slash command as written in commands.py: after the admin
and level checks it calls db.set_level (which commits), then assigns
required_xp into the dict returned by db.get_user_data — a temporary copy,
so the store is not changed — and then calls bot.db.save_data(), a method
that does not exist on DatabaseManager (only on the legacy JSON Database
in database.py), raising AttributeError after the level commit. -/
def cmd_set_level (is_admin : Bool) (s : DBState) (uid level : Int) :
    SetLevelOutcome × DBState :=
  if is_admin = false then (.accessDenied, s)
  else if level < 1 then (.invalidLevel, s)
  else
    let s1 := set_level s uid level
    let s2 := (get_user_data s1 uid).2
    (.crashed, s2)

/-! ### Observation helpers and claim-side definitions -/

/-- Balance of a user as seen from outside (0 when no row exists). -/
def coinsOf (s : DBState) (uid : Int) : Int :=
  match usersLookup s.users uid with
  | some u => u.coins
  | none => 0

/-- Xp of a user as seen from outside (0 when no row exists). -/
def xpOf (s : DBState) (uid : Int) : Int :=
  match usersLookup s.users uid with
  | some u => u.xp
  | none => 0

/-- Stored level of a user as seen from outside (1 when no row exists). -/
def levelOf (s : DBState) (uid : Int) : Int :=
  match usersLookup s.users uid with
  | some u => u.level
  | none => 1

/-- The last_xp_gain stamp of a user (none when no row exists). -/
def lastOf (s : DBState) (uid : Int) : Option Int :=
  match usersLookup s.users uid with
  | some u => u.last_xp_gain
  | none => none

/-- Total coin supply across all accounts. -/
def totalCoins (s : DBState) : Int :=
  (s.users.map (fun p => p.2.coins)).sum

/-- The per-level reward exactly as the specification words it:
base times 3 at multiples of 10, base times 2 at the remaining multiples
of 5, base otherwise. -/
def claimLevelReward (l : Int) : Int :=
  if l % 10 = 0 then Config.BASE_COINS_PER_LEVEL * 3
  else if l % 5 = 0 ∧ l % 10 ≠ 0 then Config.BASE_COINS_PER_LEVEL * 2
  else Config.BASE_COINS_PER_LEVEL

/-- The ledger operations quantified over by the non-negativity claim. -/
inductive LedgerOp where
  | addCoinsOp (uid amount : Int)
  | removeCoinsOp (uid amount : Int)
  | transferOp (from_id to_id amount : Int)
  | setCoinsOp (uid amount : Int)
  | addXpOp (uid amount now : Int)
  | setLevelOp (uid level : Int)
deriving DecidableEq

def applyOp (s : DBState) : LedgerOp → DBState
  | .addCoinsOp u a => (add_coins s u a "system").2
  | .removeCoinsOp u a => (remove_coins s u a "system").2
  | .transferOp f t a => (transfer_coins s f t a).2
  | .setCoinsOp u a => set_coins s u a
  | .addXpOp u a n => (add_xp s u a n).2
  | .setLevelOp u l => set_level s u l

def applyOps (s : DBState) (ops : List LedgerOp) : DBState := ops.foldl applyOp s

/-- The preconditions exactly as the claim states them: positivity for
add_coins, remove_coins and add_xp, nothing for transfer_coins, set_coins
and set_level. -/
def claimPre : LedgerOp → Bool
  | .addCoinsOp _ a => decide (0 < a)
  | .removeCoinsOp _ a => decide (0 < a)
  | .transferOp _ _ _ => true
  | .setCoinsOp _ _ => true
  | .addXpOp _ a _ => decide (0 < a)
  | .setLevelOp _ _ => true

/-- The amended preconditions: additionally, transfer amounts and absolute
balance sets must be nonnegative. -/
def goodOp : LedgerOp → Bool
  | .addCoinsOp _ a => decide (0 < a)
  | .removeCoinsOp _ a => decide (0 < a)
  | .transferOp _ _ a => decide (0 ≤ a)
  | .setCoinsOp _ a => decide (0 ≤ a)
  | .addXpOp _ a _ => decide (0 < a)
  | .setLevelOp _ _ => true

/-- Every stored account has nonnegative coins and xp. -/
def nonNegState (s : DBState) : Bool :=
  s.users.all (fun p => decide (0 ≤ p.2.coins) && decide (0 ≤ p.2.xp))

/-! ### Concrete states used by witnesses and counterexamples -/

def exC1 : DBState := ⟨[(7, newUser)], []⟩

def exC4 : DBState := ⟨[(1, ⟨100, 0, 1, 0, none⟩), (2, ⟨5, 0, 1, 0, none⟩)], []⟩

def exC7 : DBState := ⟨[(1, ⟨0, 0, 1, 1, some 0⟩)], []⟩

def exC8 : DBState := ⟨[(1, ⟨5, 0, 1, 0, none⟩)], []⟩

def exC9 : DBState := ⟨[(3, ⟨40, 0, 1, 0, none⟩)], []⟩

def exC10 : DBState := ⟨[(1, ⟨-10, 0, 1, 0, none⟩)], []⟩

/-! ### Lemmas about the users table -/

theorem usersLookup_setUser_self {l : List (Int × UserRec)} {uid : Int} {v : UserRec}
    (u : UserRec) (h : usersLookup l uid = some v) :
    usersLookup (setUser l uid u) uid = some u := by
  induction l with
  | nil => simp [usersLookup] at h
  | cons p rest ih =>
    obtain ⟨k, w⟩ := p
    by_cases hk : k = uid
    · subst hk; simp [usersLookup, setUser]
    · simp only [usersLookup, setUser, if_neg hk] at h ⊢
      exact ih h

theorem usersLookup_setUser_of_ne {l : List (Int × UserRec)} {uid k : Int}
    (u : UserRec) (h : k ≠ uid) :
    usersLookup (setUser l uid u) k = usersLookup l k := by
  induction l with
  | nil => simp [setUser]
  | cons p rest ih =>
    obtain ⟨k0, w⟩ := p
    by_cases hk : k0 = uid
    · have hne : ¬ k0 = k := fun hh => h (hh.symm.trans hk)
      simp only [setUser, if_pos hk, usersLookup, if_neg hne]
    · simp only [setUser, if_neg hk, usersLookup]
      by_cases hk2 : k0 = k
      · simp only [if_pos hk2]
      · simp only [if_neg hk2]; exact ih

theorem setUser_of_none {l : List (Int × UserRec)} {uid : Int} (u : UserRec)
    (h : usersLookup l uid = none) : setUser l uid u = l := by
  induction l with
  | nil => rfl
  | cons p rest ih =>
    obtain ⟨k, w⟩ := p
    by_cases hk : k = uid
    · simp [usersLookup, hk] at h
    · simp only [usersLookup, if_neg hk] at h
      simp [setUser, hk, ih h]

theorem usersLookup_append_of_some {l l2 : List (Int × UserRec)} {k : Int} {v : UserRec}
    (h : usersLookup l k = some v) : usersLookup (l ++ l2) k = some v := by
  induction l with
  | nil => simp [usersLookup] at h
  | cons p rest ih =>
    obtain ⟨k0, w⟩ := p
    by_cases hk : k0 = k
    · simp only [usersLookup, if_pos hk] at h ⊢; exact h
    · simp only [usersLookup, if_neg hk] at h ⊢
      exact ih h

theorem usersLookup_append_of_none {l l2 : List (Int × UserRec)} {k : Int}
    (h : usersLookup l k = none) : usersLookup (l ++ l2) k = usersLookup l2 k := by
  induction l with
  | nil => simp
  | cons p rest ih =>
    obtain ⟨k0, w⟩ := p
    by_cases hk : k0 = k
    · simp [usersLookup, hk] at h
    · simp only [usersLookup, if_neg hk] at h ⊢
      exact ih h

theorem usersLookup_single {uid : Int} (u : UserRec) :
    usersLookup [(uid, u)] uid = some u := by
  simp [usersLookup]

/-- The first claim scenario evaluated on the embedded command: the admin
level-set to 5 on a fresh user commits level 5, leaves the persisted xp at
0 (not 1600 as the specification requires), desynchronizing the derived
level, and ends in the AttributeError crash on the missing save_data. -/
theorem C1_admin_level_set_leaves_xp_stale :
    (cmd_set_level true exC1 7 5).1 = SetLevelOutcome.crashed ∧
    levelOf (cmd_set_level true exC1 7 5).2 7 = 5 ∧
    xpOf (cmd_set_level true exC1 7 5).2 7 = 0 ∧
    calculate_xp_for_level 5 = 1600 ∧
    calculate_level_from_xp (xpOf (cmd_set_level true exC1 7 5).2 7) = 1 := by
  decide

set_option maxRecDepth 100000 in
/-- C2 counterexample: at level L = 2^53 + 2 = 9007199254740994 the claimed
round trip fails on the code: the binary64 rounding of (L-1)^2 inside
calculate_level_from_xp lands the square root below the level boundary and
the code returns L - 1. -/
theorem C2_roundtrip_cex :
    calculate_level_from_xp (calculate_xp_for_level 9007199254740994) = 9007199254740993 ∧
    calculate_level_from_xp (calculate_xp_for_level 9007199254740994) ≠ 9007199254740994 := by
  constructor
  · decide
  · decide

/-- C5 counterexample: with only the preconditions the claim states,
set_coins with a negative amount and transfer_coins with a negative amount
drive balances below zero. -/
theorem C5_nonnegativity_cex :
    (([LedgerOp.setCoinsOp 1 (-3)]).all claimPre = true ∧
      coinsOf (applyOps emptyDB [LedgerOp.setCoinsOp 1 (-3)]) 1 < 0) ∧
    (([LedgerOp.addCoinsOp 2 10, LedgerOp.transferOp 2 3 (-5)]).all claimPre = true ∧
      coinsOf (applyOps emptyDB [LedgerOp.addCoinsOp 2 10, LedgerOp.transferOp 2 3 (-5)]) 3 < 0) := by
  decide

/-- C7 counterexample: two message events 10 seconds apart (inside the
60-second cooldown) for a user whose previous grant was at time 0 produce
zero xp grants, not exactly one. -/
theorem C7_cooldown_cex :
    xpGrant exC7 1 5 0 10 = false ∧
    process_message exC7 1 5 0 10 = exC7 ∧
    xpGrant (process_message exC7 1 5 0 10) 1 5 0 20 = false := by
  decide

/-- C8 counterexample: when the storage fails on all three attempts over a
nonempty users table, get_leaderboard returns the empty list — the very
value a successful query returns on an empty table, so the error outcome
and the no-data outcome are not distinguishable in the returned result. -/
theorem C8_error_vs_empty_cex :
    get_leaderboard (fun _ => true) exC8 10 "coins" = [] ∧
    get_leaderboard (fun _ => false) emptyDB 10 "coins" = [] ∧
    exC8.users ≠ [] := by
  decide

/-- C10 counterexample: remove_coins with a nonpositive amount does not
always succeed: it returns failure for a user with no account row, and for
an existing account whose balance is negative and below the amount. -/
theorem C10_nonpositive_cex :
    (remove_coins emptyDB 1 0 "system").1 = false ∧
    (remove_coins emptyDB 1 (-5) "system").1 = false ∧
    (remove_coins exC10 1 (-3) "system").1 = false := by
  decide

/-! ### Unfolding lemmas for the store operations -/

theorem get_user_data_of_some {s : DBState} {uid : Int} {u : UserRec}
    (h : usersLookup s.users uid = some u) : get_user_data s uid = (u, s) := by
  simp [get_user_data, h]

theorem get_user_data_of_none {s : DBState} {uid : Int}
    (h : usersLookup s.users uid = none) :
    get_user_data s uid = (newUser, { s with users := s.users ++ [(uid, newUser)] }) := by
  simp [get_user_data, h]

theorem coinsOf_of_some {s : DBState} {uid : Int} {u : UserRec}
    (h : usersLookup s.users uid = some u) : coinsOf s uid = u.coins := by
  simp [coinsOf, h]

theorem coinsOf_of_none {s : DBState} {uid : Int}
    (h : usersLookup s.users uid = none) : coinsOf s uid = 0 := by
  simp [coinsOf, h]

theorem remove_coins_of_none {s : DBState} {uid a : Int} {tt : String}
    (h : usersLookup s.users uid = none) : remove_coins s uid a tt = (false, s) := by
  simp [remove_coins, h]

theorem remove_coins_insufficient {s : DBState} {uid a : Int} {tt : String} {u : UserRec}
    (h : usersLookup s.users uid = some u) (hc : u.coins < a) :
    remove_coins s uid a tt = (false, s) := by
  simp [remove_coins, h, hc]

theorem remove_coins_success {s : DBState} {uid a : Int} {tt : String} {u : UserRec}
    (h : usersLookup s.users uid = some u) (hc : ¬ u.coins < a) :
    remove_coins s uid a tt =
      (true, ⟨setUser s.users uid { u with coins := u.coins - a },
              s.transactions ++ [⟨some uid, none, -a, tt⟩]⟩) := by
  simp [remove_coins, h, hc]

theorem add_coins_of_some {s : DBState} {uid a : Int} {tt : String} {u : UserRec}
    (h : usersLookup s.users uid = some u) :
    add_coins s uid a tt =
      (u.coins + a, ⟨setUser s.users uid { u with coins := u.coins + a },
                     s.transactions ++ [⟨none, some uid, a, tt⟩]⟩) := by
  simp [add_coins, get_user_data_of_some h]

theorem add_coins_of_none {s : DBState} {uid a : Int} {tt : String}
    (h : usersLookup s.users uid = none) :
    add_coins s uid a tt =
      (a, ⟨setUser (s.users ++ [(uid, newUser)]) uid { newUser with coins := a },
           s.transactions ++ [⟨none, some uid, a, tt⟩]⟩) := by
  have h0 : newUser.coins + a = a := by simp [newUser]
  simp only [add_coins, get_user_data_of_none h, h0]

theorem updCoins_of_some {s : DBState} {uid : Int} {u : UserRec} (f : Int → Int)
    (h : usersLookup s.users uid = some u) :
    updCoins s uid f = { s with users := setUser s.users uid { u with coins := f u.coins } } := by
  simp [updCoins, h]

/-! ### C6 : the remove_coins debit contract -/

/-- C6: for positive amounts, remove_coins succeeds exactly when the
balance covers the amount; success debits exactly the amount and appends
exactly one transaction record from=uid, to=null in the same commit;
failure leaves the state untouched. -/
theorem C6_remove_coins_contract (s : DBState) (u a : Int) (tt : String) (ha : 0 < a) :
    ((remove_coins s u a tt).1 = true ↔ a ≤ coinsOf s u) ∧
    ((remove_coins s u a tt).1 = true →
      coinsOf (remove_coins s u a tt).2 u = coinsOf s u - a ∧
      (remove_coins s u a tt).2.transactions
        = s.transactions ++ [⟨some u, none, -a, tt⟩]) ∧
    ((remove_coins s u a tt).1 = false → (remove_coins s u a tt).2 = s) := by
  rcases hl : usersLookup s.users u with _ | v
  · rw [remove_coins_of_none hl, coinsOf_of_none hl]
    refine ⟨?_, ?_, ?_⟩
    · constructor
      · intro h; cases h
      · intro h; omega
    · intro h; cases h
    · intro _; rfl
  · by_cases hc : v.coins < a
    · rw [remove_coins_insufficient hl hc, coinsOf_of_some hl]
      refine ⟨?_, ?_, ?_⟩
      · constructor
        · intro h; cases h
        · intro h; omega
      · intro h; cases h
      · intro _; rfl
    · rw [remove_coins_success hl hc, coinsOf_of_some hl]
      refine ⟨?_, ?_, ?_⟩
      · constructor
        · intro _; omega
        · intro _; rfl
      · intro _
        constructor
        · have := usersLookup_setUser_self { v with coins := v.coins - a } hl
          simp [coinsOf, this]
        · rfl
      · intro h; cases h

/-- C6 witness: the contract applied at two concrete calls, one covered
debit and one uncovered one. -/
theorem C6_remove_coins_contract_witness :
    (((remove_coins exC4 1 30 "admin_take").1 = true ↔ 30 ≤ coinsOf exC4 1) ∧
      ((remove_coins exC4 1 30 "admin_take").1 = true →
        coinsOf (remove_coins exC4 1 30 "admin_take").2 1 = coinsOf exC4 1 - 30 ∧
        (remove_coins exC4 1 30 "admin_take").2.transactions
          = exC4.transactions ++ [⟨some 1, none, -30, "admin_take"⟩]) ∧
      ((remove_coins exC4 1 30 "admin_take").1 = false →
        (remove_coins exC4 1 30 "admin_take").2 = exC4)) ∧
    (((remove_coins exC4 2 30 "admin_take").1 = true ↔ 30 ≤ coinsOf exC4 2) ∧
      ((remove_coins exC4 2 30 "admin_take").1 = true →
        coinsOf (remove_coins exC4 2 30 "admin_take").2 2 = coinsOf exC4 2 - 30 ∧
        (remove_coins exC4 2 30 "admin_take").2.transactions
          = exC4.transactions ++ [⟨some 2, none, -30, "admin_take"⟩]) ∧
      ((remove_coins exC4 2 30 "admin_take").1 = false →
        (remove_coins exC4 2 30 "admin_take").2 = exC4)) :=
  ⟨C6_remove_coins_contract exC4 1 30 "admin_take" (by decide),
   C6_remove_coins_contract exC4 2 30 "admin_take" (by decide)⟩

/-! ### C10 : remove_coins with nonpositive amounts -/

/-- C10 amended: remove_coins performs no positivity check on the amount;
for an existing account with nonnegative balance and a nonpositive amount
the balance check holds, the call succeeds, the balance changes by minus
the amount, and one transaction record of amount -a is appended.  A user
with no account row fails instead (see the counterexample). -/
theorem C10_remove_nonpositive_amended (s : DBState) (u a : Int) (tt : String) (v : UserRec)
    (hl : usersLookup s.users u = some v) (hv : 0 ≤ v.coins) (ha : a ≤ 0) :
    (remove_coins s u a tt).1 = true ∧
    coinsOf (remove_coins s u a tt).2 u = v.coins - a ∧
    (remove_coins s u a tt).2.transactions = s.transactions ++ [⟨some u, none, -a, tt⟩] := by
  have hc : ¬ v.coins < a := by omega
  rw [remove_coins_success hl hc]
  refine ⟨rfl, ?_, rfl⟩
  have := usersLookup_setUser_self { v with coins := v.coins - a } hl
  simp [coinsOf, this]

/-- C10 witness: a zero debit and a negative debit on a concrete account,
both succeeding and crediting the negated amount. -/
theorem C10_remove_nonpositive_witness :
    ((remove_coins exC4 1 0 "system").1 = true ∧
      coinsOf (remove_coins exC4 1 0 "system").2 1 = 100 - 0 ∧
      (remove_coins exC4 1 0 "system").2.transactions
        = exC4.transactions ++ [⟨some 1, none, -0, "system"⟩]) ∧
    ((remove_coins exC4 1 (-25) "system").1 = true ∧
      coinsOf (remove_coins exC4 1 (-25) "system").2 1 = 100 - (-25) ∧
      (remove_coins exC4 1 (-25) "system").2.transactions
        = exC4.transactions ++ [⟨some 1, none, -(-25), "system"⟩]) :=
  ⟨C10_remove_nonpositive_amended exC4 1 0 "system" ⟨100, 0, 1, 0, none⟩ (by decide)
      (by decide) (by decide),
   C10_remove_nonpositive_amended exC4 1 (-25) "system" ⟨100, 0, 1, 0, none⟩ (by decide)
      (by decide) (by decide)⟩

/-! ### C9 : self-transfer at the store layer -/

theorem setUser_setUser (l : List (Int × UserRec)) (k : Int) (a b : UserRec) :
    setUser (setUser l k a) k b = setUser l k b := by
  induction l with
  | nil => rfl
  | cons p rest ih =>
    obtain ⟨k0, w⟩ := p
    by_cases hk : k0 = k
    · simp [setUser, hk]
    · simp [setUser, hk, ih]

theorem setUser_self {l : List (Int × UserRec)} {k : Int} {v : UserRec}
    (h : usersLookup l k = some v) : setUser l k v = l := by
  induction l with
  | nil => rfl
  | cons p rest ih =>
    obtain ⟨k0, w⟩ := p
    by_cases hk : k0 = k
    · simp only [usersLookup, if_pos hk] at h
      injection h with h
      simp [setUser, hk, h]
    · simp only [usersLookup, if_neg hk] at h
      simp [setUser, hk, ih h]

/-- C9: the store layer does not enforce from_id distinct from to_id: a
covered self-transfer succeeds, leaves the users table (hence the balance)
unchanged, and still appends one user_pay record; the command layer rejects
self-payment before the store is reached. -/
theorem C9_self_transfer (s : DBState) (u a : Int) (v : UserRec)
    (hl : usersLookup s.users u = some v) (hc : a ≤ v.coins) :
    transfer_coins s u u a =
      (true, { s with transactions :=
        s.transactions ++ [⟨some u, some u, a, "user_pay"⟩] }) ∧
    coinsOf (transfer_coins s u u a).2 u = coinsOf s u ∧
    (∀ (t : DBState) (sender : Int) (isBot : Bool) (amt : Int),
      cmd_pay t sender sender isBot amt = (PayOutcome.selfPayment, t)) := by
  have hnc : ¬ v.coins < a := not_lt.mpr hc
  have hmain : transfer_coins s u u a =
      (true, { s with transactions :=
        s.transactions ++ [⟨some u, some u, a, "user_pay"⟩] }) := by
    have hs1 : (if (usersLookup s.users u).isSome then s else (get_user_data s u).2) = s := by
      rw [hl]; rfl
    set v1 : UserRec := ⟨v.coins - a, v.xp, v.level, v.total_messages, v.last_xp_gain⟩ with hv1
    set v2 : UserRec := ⟨v.coins - a + a, v.xp, v.level, v.total_messages, v.last_xp_gain⟩ with hv2
    have h2 : updCoins s u (fun c => c - a) = { s with users := setUser s.users u v1 } :=
      updCoins_of_some _ hl
    have hl2 : usersLookup (setUser s.users u v1) u = some v1 :=
      usersLookup_setUser_self _ hl
    have h3 : updCoins { s with users := setUser s.users u v1 } u (fun c => c + a)
        = { s with users := setUser (setUser s.users u v1) u v2 } :=
      updCoins_of_some _ hl2
    have hveq : v2 = v := by
      rw [hv2]
      have hcoins : v.coins - a + a = v.coins := by omega
      rw [hcoins]
    have h4 : updCoins (updCoins s u (fun c => c - a)) u (fun c => c + a) = s := by
      rw [h2, h3, setUser_setUser, hveq, setUser_self hl]
    simp only [transfer_coins, hs1]
    simp only [hl]
    rw [if_neg hnc, h4]
  refine ⟨hmain, ?_, ?_⟩
  · rw [hmain]
    simp [coinsOf, hl]
  · intro t sender isBot amt
    unfold cmd_pay
    rw [if_pos rfl]

/-- C9 witness: a covered self-transfer on a concrete state and the
command-layer rejection at a concrete invocation. -/
theorem C9_self_transfer_witness :
    (transfer_coins exC9 3 3 40 =
      (true, { exC9 with transactions :=
        exC9.transactions ++ [⟨some 3, some 3, 40, "user_pay"⟩] }) ∧
      coinsOf (transfer_coins exC9 3 3 40).2 3 = coinsOf exC9 3 ∧
      (∀ (t : DBState) (sender : Int) (isBot : Bool) (amt : Int),
        cmd_pay t sender sender isBot amt = (PayOutcome.selfPayment, t))) :=
  C9_self_transfer exC9 3 40 ⟨40, 0, 1, 0, none⟩ (by decide) (by decide)

/-! ### C4 : transfer conservation -/

theorem sumCoins_setUser {l : List (Int × UserRec)} {k : Int} {v : UserRec} (u : UserRec)
    (h : usersLookup l k = some v) :
    ((setUser l k u).map (fun p => p.2.coins)).sum
      = (l.map (fun p => p.2.coins)).sum - v.coins + u.coins := by
  induction l with
  | nil => simp [usersLookup] at h
  | cons p rest ih =>
    obtain ⟨k0, w⟩ := p
    by_cases hk : k0 = k
    · simp only [usersLookup, if_pos hk] at h
      injection h with h
      subst h
      simp only [setUser, if_pos hk, List.map_cons, List.sum_cons]
      ring
    · simp only [usersLookup, if_neg hk] at h
      simp only [setUser, if_neg hk, List.map_cons, List.sum_cons, ih h]
      ring

/-- C4: a transfer between distinct users conserves the total coin supply:
on success the sender is debited exactly the amount and the receiver
credited exactly the amount; when the sender balance does not cover the
amount the call fails and the whole state is untouched. -/
theorem C4_transfer_conservation (s : DBState) (A B a : Int) (hAB : A ≠ B) :
    ((transfer_coins s A B a).1 = true →
      coinsOf (transfer_coins s A B a).2 A = coinsOf s A - a ∧
      coinsOf (transfer_coins s A B a).2 B = coinsOf s B + a ∧
      totalCoins (transfer_coins s A B a).2 = totalCoins s) ∧
    (coinsOf s A < a →
      (transfer_coins s A B a).1 = false ∧ (transfer_coins s A B a).2 = s) := by
  rcases hlA : usersLookup s.users A with _ | fu
  · have ht : transfer_coins s A B a = (false, s) := by simp [transfer_coins, hlA]
    constructor
    · intro h; rw [ht] at h; cases h
    · intro _; rw [ht]; exact ⟨rfl, rfl⟩
  · by_cases hc : fu.coins < a
    · have ht : transfer_coins s A B a = (false, s) := by simp [transfer_coins, hlA, hc]
      constructor
      · intro h; rw [ht] at h; cases h
      · intro _; rw [ht]; exact ⟨rfl, rfl⟩
    · have hcoinsA : coinsOf s A = fu.coins := coinsOf_of_some hlA
      have key : ∃ s1 bu1,
          (if (usersLookup s.users B).isSome then s else (get_user_data s B).2) = s1 ∧
          usersLookup s1.users A = some fu ∧ usersLookup s1.users B = some bu1 ∧
          bu1.coins = coinsOf s B ∧
          (s1.users.map (fun p => p.2.coins)).sum = (s.users.map (fun p => p.2.coins)).sum ∧
          s1.transactions = s.transactions := by
        rcases hlB : usersLookup s.users B with _ | bu
        · refine ⟨{ s with users := s.users ++ [(B, newUser)] }, newUser, ?_, ?_, ?_, ?_, ?_, rfl⟩
          · simp [get_user_data_of_none hlB]
          · exact usersLookup_append_of_some hlA
          · rw [show ({ s with users := s.users ++ [(B, newUser)] } : DBState).users
                = s.users ++ [(B, newUser)] from rfl]
            rw [usersLookup_append_of_none hlB]
            exact usersLookup_single newUser
          · rw [coinsOf_of_none hlB]; rfl
          · simp [newUser]
        · exact ⟨s, bu, by simp, hlA, hlB, (coinsOf_of_some hlB).symm, rfl, rfl⟩
      obtain ⟨s1, bu1, hs1eq, hlA1, hlB1, hbu1, hsum1, htx1⟩ := key
      set fu1 : UserRec := ⟨fu.coins - a, fu.xp, fu.level, fu.total_messages, fu.last_xp_gain⟩
        with hfu1
      set bu2 : UserRec := ⟨bu1.coins + a, bu1.xp, bu1.level, bu1.total_messages, bu1.last_xp_gain⟩
        with hbu2
      have h2 : updCoins s1 A (fun c => c - a) = { s1 with users := setUser s1.users A fu1 } :=
        updCoins_of_some _ hlA1
      have hlB2 : usersLookup (setUser s1.users A fu1) B = some bu1 := by
        rw [usersLookup_setUser_of_ne _ (Ne.symm hAB)]
        exact hlB1
      have h3 : updCoins { s1 with users := setUser s1.users A fu1 } B (fun c => c + a)
          = { s1 with users := setUser (setUser s1.users A fu1) B bu2 } :=
        updCoins_of_some _ hlB2
      have hform : transfer_coins s A B a =
          (true, ⟨setUser (setUser s1.users A fu1) B bu2,
                  s1.transactions ++ [⟨some A, some B, a, "user_pay"⟩]⟩) := by
        simp only [transfer_coins, hs1eq]
        simp only [hlA]
        rw [if_neg hc, h2, h3]
      have hsnd : (transfer_coins s A B a).2 =
          ⟨setUser (setUser s1.users A fu1) B bu2,
           s1.transactions ++ [⟨some A, some B, a, "user_pay"⟩]⟩ := by rw [hform]
      have e2A : usersLookup (setUser (setUser s1.users A fu1) B bu2) A = some fu1 :=
        (usersLookup_setUser_of_ne _ hAB).trans (usersLookup_setUser_self _ hlA1)
      have e2B : usersLookup (setUser (setUser s1.users A fu1) B bu2) B = some bu2 :=
        usersLookup_setUser_self _ hlB2
      constructor
      · intro _
        refine ⟨?_, ?_, ?_⟩
        · rw [hsnd, coinsOf_of_some e2A, coinsOf_of_some hlA]
        · rw [hsnd, coinsOf_of_some e2B]
          have c2 : bu2.coins = bu1.coins + a := rfl
          rw [c2, hbu1]
        · rw [hsnd]
          show ((setUser (setUser s1.users A fu1) B bu2).map (fun p => p.2.coins)).sum
            = totalCoins s
          rw [sumCoins_setUser bu2 hlB2, sumCoins_setUser fu1 hlA1]
          unfold totalCoins
          have c1 : fu1.coins = fu.coins - a := rfl
          have c2 : bu2.coins = bu1.coins + a := rfl
          omega
      · intro h
        rw [hcoinsA] at h
        exact absurd h hc

/-- C4 witness: the contract applied to a covered transfer and to an
uncovered transfer on a concrete two-account state. -/
theorem C4_transfer_conservation_witness :
    (coinsOf (transfer_coins exC4 1 2 30).2 1 = coinsOf exC4 1 - 30 ∧
      coinsOf (transfer_coins exC4 1 2 30).2 2 = coinsOf exC4 2 + 30 ∧
      totalCoins (transfer_coins exC4 1 2 30).2 = totalCoins exC4) ∧
    ((transfer_coins exC4 2 1 100).1 = false ∧ (transfer_coins exC4 2 1 100).2 = exC4) :=
  ⟨(C4_transfer_conservation exC4 1 2 30 (by decide)).1 (by decide),
   (C4_transfer_conservation exC4 2 1 100 (by decide)).2 (by decide)⟩

/-! ### C8 : bounded retries and the error-versus-empty outcome -/

/-- C8 amended: the leaderboard query makes at most 3 attempts and never
consults the fault schedule beyond them; any successful attempt returns the
ordered query result, and when all three attempts fail the caller receives
the empty list, the same value a successful query returns on an empty
table. -/
theorem C8_leaderboard_retry_amended (fails fails2 : Nat → Bool) (s : DBState)
    (limit : Nat) (sort_by : String) :
    lbAttempts fails ≤ 3 ∧
    ((fails 0 = fails2 0 ∧ fails 1 = fails2 1 ∧ fails 2 = fails2 2) →
      get_leaderboard fails s limit sort_by = get_leaderboard fails2 s limit sort_by) ∧
    ((fails 0 = false ∨ fails 1 = false ∨ fails 2 = false) →
      get_leaderboard fails s limit sort_by = lbQuery s limit sort_by) ∧
    ((fails 0 = true ∧ fails 1 = true ∧ fails 2 = true) →
      get_leaderboard fails s limit sort_by = []) := by
  refine ⟨?_, ?_, ?_, ?_⟩
  · unfold lbAttempts
    split
    · omega
    · split <;> omega
  · intro ⟨h0, h1, h2⟩
    unfold get_leaderboard
    rw [h0, h1, h2]
  · intro h
    unfold get_leaderboard
    rcases hf0 : fails 0 with _ | _
    · simp
    · rcases hf1 : fails 1 with _ | _
      · simp
      · rcases hf2 : fails 2 with _ | _
        · simp
        · rcases h with h | h | h
          · rw [hf0] at h; cases h
          · rw [hf1] at h; cases h
          · rw [hf2] at h; cases h
  · intro ⟨h0, h1, h2⟩
    unfold get_leaderboard
    rw [h0, h1, h2]
    simp

/-- C8 witness: the amended contract at a concrete fault schedule failing
only the first attempt, on a concrete state. -/
theorem C8_leaderboard_retry_witness :
    lbAttempts (fun i => decide (i = 0)) ≤ 3 ∧
    (((fun i => decide (i = 0)) 0 = (fun i => decide (i = 0)) 0 ∧
      (fun i => decide (i = 0)) 1 = (fun i => decide (i = 0)) 1 ∧
      (fun i => decide (i = 0)) 2 = (fun i => decide (i = 0)) 2) →
      get_leaderboard (fun i => decide (i = 0)) exC8 10 "coins"
        = get_leaderboard (fun i => decide (i = 0)) exC8 10 "coins") ∧
    (((fun i => decide (i = 0)) 0 = false ∨ (fun i => decide (i = 0)) 1 = false ∨
      (fun i => decide (i = 0)) 2 = false) →
      get_leaderboard (fun i => decide (i = 0)) exC8 10 "coins" = lbQuery exC8 10 "coins") ∧
    (((fun i => decide (i = 0)) 0 = true ∧ (fun i => decide (i = 0)) 1 = true ∧
      (fun i => decide (i = 0)) 2 = true) →
      get_leaderboard (fun i => decide (i = 0)) exC8 10 "coins" = []) :=
  C8_leaderboard_retry_amended (fun i => decide (i = 0)) (fun i => decide (i = 0)) exC8 10 "coins"

/-! ### C5 : the non-negativity invariant -/

theorem usersLookup_mem {l : List (Int × UserRec)} {k : Int} {v : UserRec}
    (h : usersLookup l k = some v) : (k, v) ∈ l := by
  induction l with
  | nil => simp [usersLookup] at h
  | cons p rest ih =>
    obtain ⟨k0, w⟩ := p
    by_cases hk : k0 = k
    · simp only [usersLookup, if_pos hk] at h
      injection h with h
      subst hk h
      exact List.mem_cons_self _ _
    · simp only [usersLookup, if_neg hk] at h
      exact List.mem_cons_of_mem _ (ih h)

theorem mem_setUser {l : List (Int × UserRec)} {k : Int} {u : UserRec} {q : Int × UserRec}
    (h : q ∈ setUser l k u) : q.2 = u ∨ q ∈ l := by
  induction l with
  | nil => simp [setUser] at h
  | cons p rest ih =>
    obtain ⟨k0, w⟩ := p
    by_cases hk : k0 = k
    · simp only [setUser, if_pos hk] at h
      rcases List.mem_cons.mp h with h | h
      · left; rw [h]
      · right; exact List.mem_cons_of_mem _ h
    · simp only [setUser, if_neg hk] at h
      rcases List.mem_cons.mp h with h | h
      · right; rw [h]; exact List.mem_cons_self _ _
      · rcases ih h with h2 | h2
        · left; exact h2
        · right; exact List.mem_cons_of_mem _ h2

theorem nonNegState_iff {s : DBState} :
    nonNegState s = true ↔ ∀ q ∈ s.users, 0 ≤ q.2.coins ∧ 0 ≤ q.2.xp := by
  simp [nonNegState, List.all_eq_true, Bool.and_eq_true, decide_eq_true_eq]

theorem nonNeg_lookup {s : DBState} {uid : Int} {v : UserRec}
    (hs : nonNegState s = true) (h : usersLookup s.users uid = some v) :
    0 ≤ v.coins ∧ 0 ≤ v.xp :=
  (nonNegState_iff.mp hs) (uid, v) (usersLookup_mem h)

theorem nn_setUser {l : List (Int × UserRec)} {k : Int} {u : UserRec}
    (hl : ∀ q ∈ l, 0 ≤ q.2.coins ∧ 0 ≤ q.2.xp) (hu : 0 ≤ u.coins ∧ 0 ≤ u.xp) :
    ∀ q ∈ setUser l k u, 0 ≤ q.2.coins ∧ 0 ≤ q.2.xp := by
  intro q hq
  rcases mem_setUser hq with h | h
  · rw [h]; exact hu
  · exact hl q h

theorem nn_append_new {l : List (Int × UserRec)} {k : Int}
    (hl : ∀ q ∈ l, 0 ≤ q.2.coins ∧ 0 ≤ q.2.xp) :
    ∀ q ∈ l ++ [(k, newUser)], 0 ≤ q.2.coins ∧ 0 ≤ q.2.xp := by
  intro q hq
  rcases List.mem_append.mp hq with h | h
  · exact hl q h
  · simp only [List.mem_singleton] at h
    rw [h]
    exact ⟨le_refl 0, le_refl 0⟩

theorem set_coins_of_some {s : DBState} {uid a : Int} {v : UserRec}
    (h : usersLookup s.users uid = some v) :
    set_coins s uid a =
      ⟨setUser s.users uid { v with coins := a },
       s.transactions ++ [⟨if 0 < a - v.coins then none else some uid,
                          if 0 < a - v.coins then some uid else none,
                          a - v.coins, "admin_set"⟩]⟩ := by
  simp only [set_coins, get_user_data_of_some h]

theorem set_coins_of_none {s : DBState} {uid a : Int}
    (h : usersLookup s.users uid = none) :
    set_coins s uid a =
      ⟨setUser (s.users ++ [(uid, newUser)]) uid { newUser with coins := a },
       s.transactions ++ [⟨if 0 < a - newUser.coins then none else some uid,
                          if 0 < a - newUser.coins then some uid else none,
                          a - newUser.coins, "admin_set"⟩]⟩ := by
  simp only [set_coins, get_user_data_of_none h]

theorem add_xp_of_some {s : DBState} {uid a now : Int} {v : UserRec}
    (h : usersLookup s.users uid = some v) :
    add_xp s uid a now =
      (v.xp + a,
       ⟨setUser s.users uid
          { v with xp := v.xp + a, total_messages := v.total_messages + 1,
                   last_xp_gain := some now },
        s.transactions⟩) := by
  simp only [add_xp, get_user_data_of_some h]

theorem add_xp_of_none {s : DBState} {uid a now : Int}
    (h : usersLookup s.users uid = none) :
    add_xp s uid a now =
      (newUser.xp + a,
       ⟨setUser (s.users ++ [(uid, newUser)]) uid
          { newUser with xp := newUser.xp + a, total_messages := newUser.total_messages + 1,
                         last_xp_gain := some now },
        s.transactions⟩) := by
  simp only [add_xp, get_user_data_of_none h]

theorem set_level_of_some {s : DBState} {uid lv : Int} {v : UserRec}
    (h : usersLookup s.users uid = some v) :
    set_level s uid lv = ⟨setUser s.users uid { v with level := lv }, s.transactions⟩ := by
  simp only [set_level, get_user_data_of_some h]

theorem set_level_of_none {s : DBState} {uid lv : Int}
    (h : usersLookup s.users uid = none) :
    set_level s uid lv =
      ⟨setUser (s.users ++ [(uid, newUser)]) uid { newUser with level := lv },
       s.transactions⟩ := by
  simp only [set_level, get_user_data_of_none h]

theorem nonNeg_updCoins_of {s : DBState} {uid : Int} (f : Int → Int)
    (hs : nonNegState s = true) (hf : ∀ c, 0 ≤ c → 0 ≤ f c) :
    nonNegState (updCoins s uid f) = true := by
  rcases hl : usersLookup s.users uid with _ | v
  · simp only [updCoins, hl]
    exact hs
  · rw [updCoins_of_some f hl, nonNegState_iff]
    have hv := nonNeg_lookup hs hl
    exact nn_setUser (nonNegState_iff.mp hs) ⟨hf _ hv.1, hv.2⟩

theorem nonNeg_applyOp {s : DBState} {op : LedgerOp}
    (hs : nonNegState s = true) (hop : goodOp op = true) :
    nonNegState (applyOp s op) = true := by
  cases op with
  | addCoinsOp u a =>
    simp only [goodOp, decide_eq_true_eq] at hop
    show nonNegState (add_coins s u a "system").2 = true
    rcases hl : usersLookup s.users u with _ | v
    · rw [add_coins_of_none hl, nonNegState_iff]
      exact nn_setUser (nn_append_new (nonNegState_iff.mp hs)) ⟨le_of_lt hop, le_refl 0⟩
    · rw [add_coins_of_some hl, nonNegState_iff]
      have hv := nonNeg_lookup hs hl
      have h0 : (0:ℤ) ≤ v.coins + a := by omega
      exact nn_setUser (nonNegState_iff.mp hs) ⟨h0, hv.2⟩
  | removeCoinsOp u a =>
    simp only [goodOp, decide_eq_true_eq] at hop
    show nonNegState (remove_coins s u a "system").2 = true
    rcases hl : usersLookup s.users u with _ | v
    · rw [remove_coins_of_none hl]; exact hs
    · by_cases hc : v.coins < a
      · rw [remove_coins_insufficient hl hc]; exact hs
      · rw [remove_coins_success hl hc, nonNegState_iff]
        have hv := nonNeg_lookup hs hl
        have h0 : (0:ℤ) ≤ v.coins - a := by omega
        exact nn_setUser (nonNegState_iff.mp hs) ⟨h0, hv.2⟩
  | transferOp A B a =>
    simp only [goodOp, decide_eq_true_eq] at hop
    show nonNegState (transfer_coins s A B a).2 = true
    rcases hlA : usersLookup s.users A with _ | fu
    · rw [show transfer_coins s A B a = (false, s) from by simp [transfer_coins, hlA]]
      exact hs
    · by_cases hc : fu.coins < a
      · rw [show transfer_coins s A B a = (false, s) from by simp [transfer_coins, hlA, hc]]
        exact hs
      · have hs1 : nonNegState (if (usersLookup s.users B).isSome then s
            else (get_user_data s B).2) = true := by
          rcases hlB : usersLookup s.users B with _ | bu
          · rw [if_neg (by decide)]
            rw [get_user_data_of_none hlB, nonNegState_iff]
            exact nn_append_new (nonNegState_iff.mp hs)
          · rw [if_pos (show (some bu).isSome = true from rfl)]
            exact hs
        have hlA1 : usersLookup (if (usersLookup s.users B).isSome then s
            else (get_user_data s B).2).users A = some fu := by
          rcases hlB : usersLookup s.users B with _ | bu
          · rw [if_neg (by decide)]
            rw [get_user_data_of_none hlB]
            exact usersLookup_append_of_some hlA
          · rw [if_pos (show (some bu).isSome = true from rfl)]
            exact hlA
        have hs2 : nonNegState (updCoins (if (usersLookup s.users B).isSome then s
            else (get_user_data s B).2) A (fun c => c - a)) = true := by
          rw [updCoins_of_some _ hlA1, nonNegState_iff]
          have hv := nonNeg_lookup hs1 hlA1
          have h0 : (0:ℤ) ≤ fu.coins - a := by omega
          exact nn_setUser (nonNegState_iff.mp hs1) ⟨h0, hv.2⟩
        have hs3 : nonNegState (updCoins (updCoins (if (usersLookup s.users B).isSome then s
            else (get_user_data s B).2) A (fun c => c - a)) B (fun c => c + a)) = true :=
          nonNeg_updCoins_of _ hs2 (fun c hc0 => by omega)
        simp only [transfer_coins, hlA, if_neg hc]
        exact hs3
  | setCoinsOp u a =>
    simp only [goodOp, decide_eq_true_eq] at hop
    show nonNegState (set_coins s u a) = true
    rcases hl : usersLookup s.users u with _ | v
    · rw [set_coins_of_none hl, nonNegState_iff]
      exact nn_setUser (nn_append_new (nonNegState_iff.mp hs)) ⟨hop, le_refl 0⟩
    · rw [set_coins_of_some hl, nonNegState_iff]
      have hv := nonNeg_lookup hs hl
      exact nn_setUser (nonNegState_iff.mp hs) ⟨hop, hv.2⟩
  | addXpOp u a now =>
    simp only [goodOp, decide_eq_true_eq] at hop
    show nonNegState (add_xp s u a now).2 = true
    rcases hl : usersLookup s.users u with _ | v
    · rw [add_xp_of_none hl, nonNegState_iff]
      have h0 : (0:ℤ) ≤ newUser.xp + a := by
        have he : newUser.xp = 0 := rfl
        omega
      exact nn_setUser (nn_append_new (nonNegState_iff.mp hs)) ⟨le_refl 0, h0⟩
    · rw [add_xp_of_some hl, nonNegState_iff]
      have hv := nonNeg_lookup hs hl
      have h0 : (0:ℤ) ≤ v.xp + a := by omega
      exact nn_setUser (nonNegState_iff.mp hs) ⟨hv.1, h0⟩
  | setLevelOp u lv =>
    show nonNegState (set_level s u lv) = true
    rcases hl : usersLookup s.users u with _ | v
    · rw [set_level_of_none hl, nonNegState_iff]
      exact nn_setUser (nn_append_new (nonNegState_iff.mp hs)) ⟨le_refl 0, le_refl 0⟩
    · rw [set_level_of_some hl, nonNegState_iff]
      have hv := nonNeg_lookup hs hl
      exact nn_setUser (nonNegState_iff.mp hs) hv

/-- C5 amended: starting from any state whose accounts all carry
nonnegative coins and xp, no sequence of ledger operations satisfying the
amended preconditions (positivity for add_coins, remove_coins and add_xp,
nonnegativity for the transfer amount and for the absolute set_coins
value) produces an account with coins or xp below zero.  The claim as
stated is refuted by the counterexample: it puts no precondition on
set_coins and transfer_coins, whose negative amounts drive balances
negative. -/
theorem C5_nonnegativity_amended (ops : List LedgerOp) (s : DBState)
    (hs : nonNegState s = true) (hops : ops.all goodOp = true) :
    nonNegState (applyOps s ops) = true := by
  induction ops generalizing s with
  | nil => exact hs
  | cons op rest ih =>
    simp only [List.all_cons, Bool.and_eq_true] at hops
    exact ih (applyOp s op) (nonNeg_applyOp hs hops.1) hops.2

/-- C5 witness: the amended invariant run on a concrete operation sequence
from the empty store. -/
theorem C5_nonnegativity_witness :
    nonNegState emptyDB = true ∧
    ([LedgerOp.addCoinsOp 1 50, LedgerOp.transferOp 1 2 20, LedgerOp.removeCoinsOp 2 5,
      LedgerOp.setCoinsOp 3 7, LedgerOp.addXpOp 1 25 0,
      LedgerOp.setLevelOp 1 2]).all goodOp = true ∧
    nonNegState (applyOps emptyDB
      [LedgerOp.addCoinsOp 1 50, LedgerOp.transferOp 1 2 20, LedgerOp.removeCoinsOp 2 5,
       LedgerOp.setCoinsOp 3 7, LedgerOp.addXpOp 1 25 0,
       LedgerOp.setLevelOp 1 2]) = true :=
  ⟨by decide, by decide,
   C5_nonnegativity_amended
     [LedgerOp.addCoinsOp 1 50, LedgerOp.transferOp 1 2 20, LedgerOp.removeCoinsOp 2 5,
      LedgerOp.setCoinsOp 3 7, LedgerOp.addXpOp 1 25 0,
      LedgerOp.setLevelOp 1 2] emptyDB (by decide) (by decide)⟩

/-! ### C7 : cooldown gating -/

theorem one_le_xp_gain (len : Nat) (rand : Int) : 1 ≤ calculate_xp_gain len rand := by
  simp only [calculate_xp_gain]
  exact le_max_left _ _

theorem lastOf_of_some {s : DBState} {uid : Int} {v : UserRec}
    (hl : usersLookup s.users uid = some v) : lastOf s uid = v.last_xp_gain := by
  simp [lastOf, hl]

theorem lastOf_of_none {s : DBState} {uid : Int}
    (hl : usersLookup s.users uid = none) : lastOf s uid = none := by
  simp [lastOf, hl]

theorem usersLookup_append_new {l : List (Int × UserRec)} {uid : Int}
    (hl : usersLookup l uid = none) :
    usersLookup (l ++ [(uid, newUser)]) uid = some newUser := by
  rw [usersLookup_append_of_none hl]
  exact usersLookup_single newUser

theorem lastOf_get_xp (s : DBState) (uid : Int) :
    lastOf (get_xp s uid).2 uid = lastOf s uid := by
  rcases hl : usersLookup s.users uid with _ | v
  · simp only [get_xp, hl]
    rw [get_user_data_of_none hl]
    rw [lastOf_of_some (usersLookup_append_new hl), lastOf_of_none hl]
    rfl
  · simp only [get_xp, hl]

theorem lastOf_add_xp (s : DBState) (uid a now : Int) :
    lastOf (add_xp s uid a now).2 uid = some now := by
  rcases hl : usersLookup s.users uid with _ | v
  · rw [add_xp_of_none hl]
    rw [lastOf_of_some (usersLookup_setUser_self
      { newUser with xp := newUser.xp + a, total_messages := newUser.total_messages + 1,
                     last_xp_gain := some now } (usersLookup_append_new hl))]
  · rw [add_xp_of_some hl]
    rw [lastOf_of_some (usersLookup_setUser_self
      { v with xp := v.xp + a, total_messages := v.total_messages + 1,
               last_xp_gain := some now } hl)]

theorem lastOf_set_level (s : DBState) (uid lv : Int) :
    lastOf (set_level s uid lv) uid = lastOf s uid := by
  rcases hl : usersLookup s.users uid with _ | v
  · rw [set_level_of_none hl]
    rw [lastOf_of_some (usersLookup_setUser_self { newUser with level := lv }
      (usersLookup_append_new hl))]
    rw [lastOf_of_none hl]
    rfl
  · rw [set_level_of_some hl]
    rw [lastOf_of_some (usersLookup_setUser_self { v with level := lv } hl)]
    rw [lastOf_of_some hl]

theorem lastOf_add_coins (s : DBState) (uid a : Int) (tt : String) :
    lastOf (add_coins s uid a tt).2 uid = lastOf s uid := by
  rcases hl : usersLookup s.users uid with _ | v
  · rw [add_coins_of_none hl]
    rw [lastOf_of_some (usersLookup_setUser_self { newUser with coins := a }
      (usersLookup_append_new hl))]
    rw [lastOf_of_none hl]
    rfl
  · rw [add_coins_of_some hl]
    rw [lastOf_of_some (usersLookup_setUser_self { v with coins := v.coins + a } hl)]
    rw [lastOf_of_some hl]

theorem lastOf_handle_level_up (s : DBState) (uid o n : Int) :
    lastOf (handle_level_up s uid o n) uid = lastOf s uid := by
  show lastOf (if 0 < levelUpReward o n then (add_coins s uid (levelUpReward o n) "level_up").2
    else s) uid = lastOf s uid
  split
  · exact lastOf_add_coins s uid (levelUpReward o n) "level_up"
  · rfl

theorem process_message_gated {s : DBState} {uid : Int} {len : Nat} {rand now : Int}
    (h : can_gain_xp s uid Config.XP_COOLDOWN now = false) :
    process_message s uid len rand now = s := by
  unfold process_message
  rw [if_pos h]

theorem grant_sets_last {s : DBState} {uid : Int} {len : Nat} {rand now : Int}
    (h : can_gain_xp s uid Config.XP_COOLDOWN now = true) :
    lastOf (process_message s uid len rand now) uid = some now := by
  have hg : ¬ calculate_xp_gain len rand ≤ 0 := by
    have := one_le_xp_gain len rand
    omega
  unfold process_message
  rw [if_neg (by simp [h])]
  simp only [if_neg hg]
  split
  · rw [lastOf_handle_level_up, lastOf_set_level, lastOf_add_xp]
  · rw [lastOf_set_level, lastOf_add_xp]

theorem can_gain_xp_false_of_last {s : DBState} {uid t cd now : Int}
    (hl : lastOf s uid = some t) (hlt : now - t < cd) :
    can_gain_xp s uid cd now = false := by
  rcases hll : usersLookup s.users uid with _ | v
  · rw [lastOf_of_none hll] at hl
    cases hl
  · rw [lastOf_of_some hll] at hl
    simp only [can_gain_xp, hll, hl]
    exact decide_eq_false (by omega)

/-- C7 amended: can_gain_xp is a pure read returning true exactly when the
stored last_xp_gain stamp is absent or at least the cooldown old, as
claimed; but of two message events for the same user less than
XP_COOLDOWN seconds apart, AT MOST one (not exactly one) results in an xp
grant: when the first event grants, the second terminates at the cooldown
gate with no state change, and when both events fall inside the cooldown
window of an earlier grant neither grants (see the counterexample). -/
theorem C7_cooldown_amended :
    (∀ (s : DBState) (uid cd now : Int),
      can_gain_xp s uid cd now = true ↔
        (∀ v, usersLookup s.users uid = some v →
          ∀ t, v.last_xp_gain = some t → cd ≤ now - t)) ∧
    (∀ (s : DBState) (uid : Int) (len1 len2 : Nat) (rand1 rand2 t1 t2 : Int),
      t1 ≤ t2 → t2 - t1 < Config.XP_COOLDOWN →
      xpGrant s uid len1 rand1 t1 = true →
        xpGrant (process_message s uid len1 rand1 t1) uid len2 rand2 t2 = false ∧
        process_message (process_message s uid len1 rand1 t1) uid len2 rand2 t2
          = process_message s uid len1 rand1 t1) := by
  constructor
  · intro s uid cd now
    rcases hl : usersLookup s.users uid with _ | v
    · simp [can_gain_xp, hl]
    · rcases hlast : v.last_xp_gain with _ | t
      · simp [can_gain_xp, hl, hlast]
      · simp only [can_gain_xp, hl, hlast, decide_eq_true_eq]
        constructor
        · intro hle w hw t2 ht2
          injection hw with hw
          subst hw
          rw [hlast] at ht2
          injection ht2 with ht2
          subst ht2
          exact hle
        · intro hall
          exact hall v rfl t hlast
  · intro s uid len1 len2 rand1 rand2 t1 t2 h12 hlt hg1
    have hcan1 : can_gain_xp s uid Config.XP_COOLDOWN t1 = true := by
      have h := hg1
      unfold xpGrant at h
      simp only [Bool.and_eq_true] at h
      exact h.1
    have hlast : lastOf (process_message s uid len1 rand1 t1) uid = some t1 :=
      grant_sets_last hcan1
    have hcan2 : can_gain_xp (process_message s uid len1 rand1 t1) uid
        Config.XP_COOLDOWN t2 = false :=
      can_gain_xp_false_of_last hlast (by omega)
    constructor
    · unfold xpGrant
      rw [hcan2]
      rfl
    · exact process_message_gated hcan2

/-- C7 witness: the pure-read characterization at a concrete state, and
the at-most-one behavior for two concrete events 45 seconds apart: the
first grants, the second is gated with no state change. -/
theorem C7_cooldown_witness :
    (can_gain_xp exC4 1 60 100 = true ↔
      (∀ v, usersLookup exC4.users 1 = some v →
        ∀ t, v.last_xp_gain = some t → 60 ≤ 100 - t)) ∧
    (xpGrant (process_message exC4 1 5 0 5) 1 5 0 50 = false ∧
      process_message (process_message exC4 1 5 0 5) 1 5 0 50
        = process_message exC4 1 5 0 5) :=
  ⟨C7_cooldown_amended.1 exC4 1 60 100,
   C7_cooldown_amended.2 exC4 1 5 5 0 0 5 50 (by decide) (by decide) (by decide)⟩

/-! ### C3 : level-up rewards -/

theorem reward_eq_claim (l : Int) : calculate_level_reward l = claimLevelReward l := by
  unfold calculate_level_reward claimLevelReward
  by_cases h10 : l % 10 = 0
  · simp [h10]
  · by_cases h5 : l % 5 = 0
    · simp [h10, h5]
    · simp [h10, h5]

theorem foldl_add_gen (f : Nat → Int) : ∀ (n : Nat) (init : Int),
    (List.range n).foldl (fun acc i => acc + f i) init = init + ∑ i in Finset.range n, f i := by
  intro n
  induction n with
  | zero => intro init; simp
  | succ n ih =>
    intro init
    rw [List.range_succ, List.foldl_append, ih init]
    simp only [List.foldl_cons, List.foldl_nil, Finset.sum_range_succ]
    ring

theorem Icc_insert_succ_right (a b : Int) (h : a ≤ b + 1) :
    Finset.Icc a (b + 1) = insert (b + 1) (Finset.Icc a b) := by
  ext x
  simp only [Finset.mem_Icc, Finset.mem_insert]
  omega

theorem sum_range_to_Icc (f : Int → Int) (n : Nat) (old : Int) :
    ∑ i in Finset.range n, f (old + 1 + i) = ∑ l in Finset.Icc (old + 1) (old + n), f l := by
  induction n with
  | zero =>
    rw [Finset.sum_range_zero]
    rw [show ((0 : Nat) : Int) = 0 from rfl, add_zero]
    rw [Finset.Icc_eq_empty (by omega), Finset.sum_empty]
  | succ n ih =>
    rw [Finset.sum_range_succ, ih]
    have hc : (old + ((n + 1 : Nat) : Int)) = (old + n) + 1 := by push_cast; ring
    rw [hc, Icc_insert_succ_right (old + 1) (old + n) (by omega)]
    rw [Finset.sum_insert (by simp only [Finset.mem_Icc]; omega)]
    have ha : old + 1 + (n : Int) = old + (n : Int) + 1 := by ring
    rw [ha]
    ring

theorem levelUpReward_eq_sum {old_level new_level : Int} (h : old_level < new_level) :
    levelUpReward old_level new_level
      = ∑ l in Finset.Icc (old_level + 1) new_level, calculate_level_reward l := by
  unfold levelUpReward
  rw [foldl_add_gen (fun i => calculate_level_reward (old_level + 1 + i)) _ 0, zero_add]
  rw [sum_range_to_Icc calculate_level_reward ((new_level - old_level).toNat) old_level]
  have hc : (((new_level - old_level).toNat : Int)) = new_level - old_level :=
    Int.toNat_of_nonneg (by omega)
  rw [hc]
  have he : old_level + (new_level - old_level) = new_level := by ring
  rw [he]

theorem levelUpReward_pos {old_level new_level : Int} (h : old_level < new_level) :
    0 < levelUpReward old_level new_level := by
  rw [levelUpReward_eq_sum h]
  apply Finset.sum_pos
  · intro l _
    unfold calculate_level_reward
    split
    · decide
    · split
      · decide
      · decide
  · exact Finset.nonempty_Icc.mpr (by omega)

theorem coinsOf_add_coins (s : DBState) (uid a : Int) (tt : String) :
    coinsOf (add_coins s uid a tt).2 uid = coinsOf s uid + a := by
  rcases hl : usersLookup s.users uid with _ | v
  · rw [add_coins_of_none hl]
    rw [coinsOf_of_some (usersLookup_setUser_self { newUser with coins := a }
      (usersLookup_append_new hl))]
    rw [coinsOf_of_none hl]
    show a = 0 + a
    omega
  · rw [add_coins_of_some hl]
    rw [coinsOf_of_some (usersLookup_setUser_self { v with coins := v.coins + a } hl)]
    rw [coinsOf_of_some hl]

/-- C3: a multi-level jump credits, in a single level_up transaction, the
sum over every crossed level of the per-level reward, which is base times
3 at multiples of 10, base times 2 at the remaining multiples of 5, and
the base reward otherwise (base = 50); in particular the crossed levels 5
through 11 sum to 500 coins. -/
theorem C3_level_up_rewards :
    (∀ (s : DBState) (uid old_level new_level : Int), old_level < new_level →
      coinsOf (handle_level_up s uid old_level new_level) uid
        = coinsOf s uid + ∑ l in Finset.Icc (old_level + 1) new_level, claimLevelReward l) ∧
    (∑ l in Finset.Icc ((4 : Int) + 1) 11, claimLevelReward l) = 500 := by
  have hsum : ∀ old_level new_level : Int, old_level < new_level →
      ∑ l in Finset.Icc (old_level + 1) new_level, claimLevelReward l
        = levelUpReward old_level new_level := by
    intro o n h
    rw [levelUpReward_eq_sum h]
    exact Finset.sum_congr rfl (fun l _ => (reward_eq_claim l).symm)
  constructor
  · intro s uid o n h
    rw [hsum o n h]
    show coinsOf (if 0 < levelUpReward o n then (add_coins s uid (levelUpReward o n) "level_up").2
      else s) uid = _
    rw [if_pos (levelUpReward_pos h)]
    exact coinsOf_add_coins s uid (levelUpReward o n) "level_up"
  · rw [hsum 4 11 (by norm_num)]
    decide

/-- C3 witness: the reward contract at the claimed scenario, a jump from
level 4 to level 11 on a concrete state. -/
theorem C3_level_up_rewards_witness :
    ((4 : Int) < 11) ∧
    coinsOf (handle_level_up exC4 1 4 11) 1
      = coinsOf exC4 1 + ∑ l in Finset.Icc ((4 : Int) + 1) 11, claimLevelReward l :=
  ⟨by decide, C3_level_up_rewards.1 exC4 1 4 11 (by decide)⟩

/-! ### C2 : exactness lemmas for the binary64 model -/

theorem log2Fuel_bounds : ∀ (f n : Nat), 1 ≤ n → n < 2 ^ f →
    2 ^ (log2Fuel f n) ≤ n ∧ n < 2 ^ (log2Fuel f n + 1) := by
  intro f
  induction f with
  | zero =>
    intro n h1 h2
    simp only [pow_zero] at h2
    omega
  | succ f ih =>
    intro n h1 h2
    by_cases h : 2 ≤ n
    · have h1b : 1 ≤ n / 2 := by omega
      have hp : 2 ^ (f + 1) = 2 * 2 ^ f := by rw [pow_succ]; ring
      have h2b : n / 2 < 2 ^ f := by omega
      obtain ⟨hl, hr⟩ := ih (n / 2) h1b h2b
      simp only [log2Fuel, if_pos h]
      constructor
      · have he : 2 ^ (log2Fuel f (n / 2) + 1) = 2 * 2 ^ (log2Fuel f (n / 2)) := by
          rw [pow_succ]; ring
        omega
      · have he : 2 ^ (log2Fuel f (n / 2) + 1 + 1) = 2 * 2 ^ (log2Fuel f (n / 2) + 1) := by
          rw [pow_succ]; ring
        omega
    · have hn : n = 1 := by omega
      subst hn
      simp only [log2Fuel, if_neg h]
      norm_num

theorem flog2_bounds (n : Nat) (h : 1 ≤ n) :
    2 ^ (flog2 n) ≤ n ∧ n < 2 ^ (flog2 n + 1) :=
  log2Fuel_bounds n n h (Nat.lt_two_pow n)

theorem flog2_unique {n t : Nat} (h1 : 2 ^ t ≤ n) (h2 : n < 2 ^ (t + 1)) : flog2 n = t := by
  have hn : 1 ≤ n := le_trans (Nat.one_le_pow t 2 (by norm_num)) h1
  obtain ⟨hl, hr⟩ := flog2_bounds n hn
  rcases Nat.lt_trichotomy (flog2 n) t with h | h | h
  · have he : 2 ^ (flog2 n + 1) ≤ 2 ^ t := Nat.pow_le_pow_right (by norm_num) (by omega)
    omega
  · exact h
  · have he : 2 ^ (t + 1) ≤ 2 ^ (flog2 n) := Nat.pow_le_pow_right (by norm_num) (by omega)
    omega

theorem flog2_mul_pow2 {c s : Nat} (hc : 1 ≤ c) : flog2 (c * 2 ^ s) = flog2 c + s := by
  obtain ⟨hl, hr⟩ := flog2_bounds c hc
  apply flog2_unique
  · rw [pow_add]
    exact Nat.mul_le_mul_right _ hl
  · have he : flog2 c + s + 1 = (flog2 c + 1) + s := by omega
    rw [he, pow_add]
    exact mul_lt_mul_of_pos_right hr (pow_pos (by norm_num) s)

theorem isqrtFuel_bounds : ∀ (f n : Nat), n < 4 ^ f →
    (isqrtFuel f n) * (isqrtFuel f n) ≤ n ∧ n < (isqrtFuel f n + 1) * (isqrtFuel f n + 1) := by
  intro f
  induction f with
  | zero =>
    intro n h
    simp only [pow_zero] at h
    have hn : n = 0 := by omega
    subst hn
    simp [isqrtFuel]
  | succ f ih =>
    intro n h
    by_cases h2 : n < 2
    · simp only [isqrtFuel, if_pos h2]
      have hn : n = 0 ∨ n = 1 := by omega
      rcases hn with hn | hn <;> subst hn <;> simp
    · have hp : (4:Nat) ^ (f + 1) = 4 * 4 ^ f := by rw [pow_succ]; ring
      have h4 : n / 4 < 4 ^ f := by omega
      obtain ⟨hl, hr⟩ := ih (n / 4) h4
      simp only [isqrtFuel, if_neg h2]
      by_cases hc : (2 * isqrtFuel f (n / 4) + 1) * (2 * isqrtFuel f (n / 4) + 1) ≤ n
      · rw [if_pos hc]
        refine ⟨hc, ?_⟩
        have he : (2 * isqrtFuel f (n / 4) + 1 + 1) * (2 * isqrtFuel f (n / 4) + 1 + 1)
            = 4 * ((isqrtFuel f (n / 4) + 1) * (isqrtFuel f (n / 4) + 1)) := by ring
        omega
      · rw [if_neg hc]
        constructor
        · have he : 2 * isqrtFuel f (n / 4) * (2 * isqrtFuel f (n / 4))
              = 4 * (isqrtFuel f (n / 4) * isqrtFuel f (n / 4)) := by ring
          omega
        · omega

theorem isqrt_bounds (n : Nat) :
    (isqrt n) * (isqrt n) ≤ n ∧ n < (isqrt n + 1) * (isqrt n + 1) := by
  apply isqrtFuel_bounds
  calc n < 2 ^ n := Nat.lt_two_pow n
    _ ≤ 4 ^ n := Nat.pow_le_pow_left (by norm_num) n

theorem isqrt_perfect (s : Nat) : isqrt (s * s) = s := by
  obtain ⟨hl, hr⟩ := isqrt_bounds (s * s)
  rcases Nat.lt_trichotomy (isqrt (s * s)) s with h | h | h
  · have h1 : isqrt (s * s) + 1 ≤ s := h
    have h2 := Nat.mul_le_mul h1 h1
    omega
  · exact h
  · have h1 : s + 1 ≤ isqrt (s * s) := h
    have h2 := Nat.mul_le_mul h1 h1
    nlinarith
  
theorem rne_exact {p r : Nat} (hr : 0 < r) (hd : r ∣ p) : rne p r = p / r := by
  obtain ⟨c, rfl⟩ := hd
  have hm : r * c % r = 0 := Nat.mul_mod_right r c
  simp only [rne, hm]
  rw [if_pos (by omega)]

theorem fracLog2_of_mul {c b : Nat} (hc : 1 ≤ c) (hb : 1 ≤ b) :
    fracLog2 (c * b) b = (flog2 c : Int) := by
  obtain ⟨hcl, hcr⟩ := flog2_bounds c hc
  obtain ⟨hbl, hbr⟩ := flog2_bounds b hb
  have hab : 1 ≤ c * b := Nat.one_le_iff_ne_zero.mpr (Nat.mul_ne_zero (by omega) (by omega))
  obtain ⟨hal, har⟩ := flog2_bounds (c * b) hab
  have hLa1 : flog2 c + flog2 b ≤ flog2 (c * b) := by
    have h1 : 2 ^ (flog2 c + flog2 b) ≤ c * b := by
      rw [pow_add]
      exact Nat.mul_le_mul hcl hbl
    have h2 : 2 ^ (flog2 c + flog2 b) < 2 ^ (flog2 (c * b) + 1) := lt_of_le_of_lt h1 har
    have h3 := (Nat.pow_lt_pow_iff_right (by norm_num : 1 < 2)).mp h2
    omega
  have hLa2 : flog2 (c * b) ≤ flog2 c + flog2 b + 1 := by
    have h1 : c * b < 2 ^ (flog2 c + 1 + (flog2 b + 1)) := by
      rw [pow_add]
      calc c * b < 2 ^ (flog2 c + 1) * b := mul_lt_mul_of_pos_right hcr (by omega)
        _ ≤ 2 ^ (flog2 c + 1) * 2 ^ (flog2 b + 1) :=
          Nat.mul_le_mul_left _ (le_of_lt hbr)
    have h2 : 2 ^ (flog2 (c * b)) < 2 ^ (flog2 c + 1 + (flog2 b + 1)) := lt_of_le_of_lt hal h1
    have h3 := (Nat.pow_lt_pow_iff_right (by norm_num : 1 < 2)).mp h2
    omega
  simp only [fracLog2]
  have hd0 : (0:Int) ≤ (flog2 (c * b) : Int) - (flog2 b : Int) := by omega
  rw [if_pos hd0]
  have htn : ((flog2 (c * b) : Int) - (flog2 b : Int)).toNat = flog2 (c * b) - flog2 b := by
    omega
  rw [htn]
  rcases Nat.eq_or_lt_of_le hLa1 with hcase | hcase
  · have he : flog2 (c * b) - flog2 b = flog2 c := by omega
    rw [he]
    rw [if_pos (Nat.mul_le_mul_right b hcl)]
    omega
  · have he : flog2 (c * b) - flog2 b = flog2 c + 1 := by omega
    rw [he]
    rw [if_neg ?hneg]
    case hneg =>
      intro hcon
      have := Nat.le_of_mul_le_mul_right hcon (by omega : 0 < b)
      omega
    omega

theorem roundFrac_exact {c b : Nat} (hc : 1 ≤ c) (hb : 1 ≤ b) (ht : flog2 c ≤ 52) :
    roundFrac (c * b) b = ⟨c * 2 ^ (52 - flog2 c), (flog2 c : Int) - 52⟩ := by
  have ha : ¬ (c * b = 0) := Nat.mul_ne_zero (by omega) (by omega)
  simp only [roundFrac]
  rw [if_neg ha]
  rw [fracLog2_of_mul hc hb]
  have he : ((flog2 c : Int)) ≤ 52 := by omega
  rw [if_pos he, if_pos he]
  have htn : ((52 : Int) - (flog2 c : Int)).toNat = 52 - flog2 c := by omega
  rw [htn]
  have hdvd : b ∣ c * b * 2 ^ (52 - flog2 c) := ⟨c * 2 ^ (52 - flog2 c), by ring⟩
  rw [rne_exact (by omega) hdvd]
  have hq : c * b * 2 ^ (52 - flog2 c) / b = c * 2 ^ (52 - flog2 c) := by
    rw [show c * b * 2 ^ (52 - flog2 c) = b * (c * 2 ^ (52 - flog2 c)) from by ring]
    exact Nat.mul_div_cancel_left _ (by omega)
  rw [hq]

theorem sqrtDyadic_square {n : Nat} (hn : 1 ≤ n) (ht : flog2 (n * n) ≤ 52) :
    sqrtDyadic ⟨n * n * 2 ^ (52 - flog2 (n * n)), (flog2 (n * n) : Int) - 52⟩
      = ⟨n * 2 ^ (52 - flog2 (n * n) / 2), ((flog2 (n * n) / 2 : Nat) : Int) - 52⟩ := by
  have hnn : 1 ≤ n * n := Nat.one_le_iff_ne_zero.mpr (Nat.mul_ne_zero (by omega) (by omega))
  have hm : ¬ (n * n * 2 ^ (52 - flog2 (n * n)) = 0) :=
    Nat.mul_ne_zero (by omega) (Nat.pos_iff_ne_zero.mp (pow_pos (by norm_num) _))
  simp only [sqrtDyadic]
  rw [if_neg hm]
  have hf52 : flog2 (n * n * 2 ^ (52 - flog2 (n * n))) = 52 := by
    rw [flog2_mul_pow2 (by omega)]
    omega
  have htI : ((52 : Nat) : Int) + ((flog2 (n * n) : Int) - 52) = (flog2 (n * n) : Int) := by
    push_cast
    ring
  have hfdiv : ∀ t : Nat, Int.fdiv (t : Int) 2 = ((t / 2 : Nat) : Int) := by
    intro t
    cases t with
    | zero => rfl
    | succ m => rfl
  have he2 : Int.fdiv (flog2 (n * n) : Int) 2 = ((flog2 (n * n) / 2 : Nat) : Int) :=
    hfdiv (flog2 (n * n))
  have hj : ((flog2 (n * n) : Int) - 52) + 104 - 2 * ((flog2 (n * n) / 2 : Nat) : Int)
      = ((flog2 (n * n) + 52 - 2 * (flog2 (n * n) / 2) : Nat) : Int) := by
    omega
  have hcond : (0 : Int) ≤ ((flog2 (n * n) + 52 - 2 * (flog2 (n * n) / 2) : Nat) : Int) :=
    Int.natCast_nonneg _
  have htn : (((flog2 (n * n) + 52 - 2 * (flog2 (n * n) / 2) : Nat) : Int)).toNat
      = flog2 (n * n) + 52 - 2 * (flog2 (n * n) / 2) := by omega
  simp only [hf52, htI, he2, hj, hcond, if_true, htn, Nat.div_one]
  have ham : n * n * 2 ^ (52 - flog2 (n * n)) * 2 ^ (flog2 (n * n) + 52 - 2 * (flog2 (n * n) / 2))
      = (n * 2 ^ (52 - flog2 (n * n) / 2)) * (n * 2 ^ (52 - flog2 (n * n) / 2)) := by
    rw [mul_assoc, ← pow_add]
    have harith : (52 - flog2 (n * n)) + (flog2 (n * n) + 52 - 2 * (flog2 (n * n) / 2))
        = (52 - flog2 (n * n) / 2) + (52 - flog2 (n * n) / 2) := by omega
    rw [harith, pow_add]
    ring
  rw [ham, isqrt_perfect]
  have hc1 : ¬ ((2 * (n * 2 ^ (52 - flog2 (n * n) / 2)) + 1)
        * (2 * (n * 2 ^ (52 - flog2 (n * n) / 2)) + 1)
      < 4 * ((n * 2 ^ (52 - flog2 (n * n) / 2)) * (n * 2 ^ (52 - flog2 (n * n) / 2)))) := by
    have he : (2 * (n * 2 ^ (52 - flog2 (n * n) / 2)) + 1)
          * (2 * (n * 2 ^ (52 - flog2 (n * n) / 2)) + 1)
        = 4 * ((n * 2 ^ (52 - flog2 (n * n) / 2)) * (n * 2 ^ (52 - flog2 (n * n) / 2)))
          + 4 * (n * 2 ^ (52 - flog2 (n * n) / 2)) + 1 := by ring
    omega
  have hc2 : ¬ (4 * ((n * 2 ^ (52 - flog2 (n * n) / 2)) * (n * 2 ^ (52 - flog2 (n * n) / 2)))
      = (2 * (n * 2 ^ (52 - flog2 (n * n) / 2)) + 1)
        * (2 * (n * 2 ^ (52 - flog2 (n * n) / 2)) + 1)) := by
    have he : (2 * (n * 2 ^ (52 - flog2 (n * n) / 2)) + 1)
          * (2 * (n * 2 ^ (52 - flog2 (n * n) / 2)) + 1)
        = 4 * ((n * 2 ^ (52 - flog2 (n * n) / 2)) * (n * 2 ^ (52 - flog2 (n * n) / 2)))
          + 4 * (n * 2 ^ (52 - flog2 (n * n) / 2)) + 1 := by ring
    omega
  simp only [mul_one]
  rw [if_neg hc1, if_neg hc2]

theorem dyadicFloor_cancel {n e2 : Nat} (he : e2 ≤ 52) :
    dyadicFloor ⟨n * 2 ^ (52 - e2), (e2 : Int) - 52⟩ = n := by
  simp only [dyadicFloor]
  by_cases h52 : e2 = 52
  · subst h52
    rw [if_pos (by norm_num)]
    norm_num
  · have hneg : ¬ ((0:Int) ≤ (e2 : Int) - 52) := by omega
    rw [if_neg hneg]
    have htn : (-((e2 : Int) - 52)).toNat = 52 - e2 := by omega
    rw [htn]
    exact Nat.mul_div_cancel _ (pow_pos (by norm_num) _)

theorem int_fdiv_two_cast (t : Nat) : Int.fdiv (t : Int) 2 = ((t / 2 : Nat) : Int) := by
  cases t with
  | zero => rfl
  | succ m => rfl

theorem rne_mul_left {c p r : Nat} (hc : 0 < c) :
    rne (c * p) (c * r) = rne p r := by
  have hdiv : c * p / (c * r) = p / r := Nat.mul_div_mul_left p r hc
  have hmod : c * p % (c * r) = c * (p % r) := Nat.mul_mod_mul_left c p r
  have hlt : 2 * (c * (p % r)) < c * r ↔ 2 * (p % r) < r := by
    rw [show 2 * (c * (p % r)) = c * (2 * (p % r)) from by ring]
    constructor
    · intro h
      exact lt_of_mul_lt_mul_left h (Nat.zero_le c)
    · intro h
      exact mul_lt_mul_of_pos_left h hc
  have hgt : c * r < 2 * (c * (p % r)) ↔ r < 2 * (p % r) := by
    rw [show 2 * (c * (p % r)) = c * (2 * (p % r)) from by ring]
    constructor
    · intro h
      exact lt_of_mul_lt_mul_left h (Nat.zero_le c)
    · intro h
      exact mul_lt_mul_of_pos_left h hc
  simp only [rne, hdiv, hmod]
  by_cases h1 : 2 * (p % r) < r
  · rw [if_pos (hlt.mpr h1), if_pos h1]
  · rw [if_neg (fun h => h1 (hlt.mp h)), if_neg h1]
    by_cases h2 : r < 2 * (p % r)
    · rw [if_pos (hgt.mpr h2), if_pos h2]
    · rw [if_neg (fun h => h2 (hgt.mp h)), if_neg h2]

theorem rne_bound {p r : Nat} (hr : 0 < r) :
    2 * p ≤ 2 * (rne p r * r) + r ∧ 2 * (rne p r * r) ≤ 2 * p + r := by
  simp only [rne]
  generalize hq : p / r = q
  generalize hw : p % r = w
  have hdm : q * r + w = p := by
    rw [← hq, ← hw, Nat.mul_comm]
    exact Nat.div_add_mod p r
  have hwlt : w < r := by rw [← hw]; exact Nat.mod_lt p hr
  have hs1 : (q + 1) * r = q * r + r := by ring
  by_cases h1 : 2 * w < r
  · rw [if_pos h1]
    omega
  · rw [if_neg h1]
    by_cases h2 : r < 2 * w
    · rw [if_pos h2]
      omega
    · rw [if_neg h2]
      by_cases h3 : q % 2 = 0
      · rw [if_pos h3]
        omega
      · rw [if_neg h3]
        omega

theorem roundFrac_large {c b : Nat} (hc : 1 ≤ c) (hb : 1 ≤ b) (ht : 53 ≤ flog2 c) :
    roundFrac (c * b) b = ⟨rne c (2 ^ (flog2 c - 52)), (flog2 c : Int) - 52⟩ := by
  have ha : ¬ (c * b = 0) := Nat.mul_ne_zero (by omega) (by omega)
  simp only [roundFrac]
  rw [if_neg ha]
  rw [fracLog2_of_mul hc hb]
  have he : ¬ ((flog2 c : Int) ≤ 52) := by omega
  rw [if_neg he, if_neg he]
  have htn : ((flog2 c : Int) - 52).toNat = flog2 c - 52 := by omega
  rw [htn]
  rw [show c * b = b * c from by ring]
  rw [rne_mul_left (by omega)]

theorem near_square_bounds {n k P A : Nat}
    (hA1 : 2 * A ≤ 2 * (n * n) + 2 ^ k)
    (hA2 : 2 * (n * n) ≤ 2 * A + 2 ^ k)
    (hPn : 2 ^ (k + P) < 2 * n) :
    (n * 2 ^ P) * (n * 2 ^ P) + 1 ≤ A * (2 ^ P * 2 ^ P) + n * 2 ^ P
    ∧ A * (2 ^ P * 2 ^ P) ≤ (n * 2 ^ P) * (n * 2 ^ P) + n * 2 ^ P := by
  have hkP : (2 : Nat) ^ (k + P) = 2 ^ k * 2 ^ P := pow_add 2 k P
  have hmul1 : (2 * A) * (2 ^ P * 2 ^ P) ≤ (2 * (n * n) + 2 ^ k) * (2 ^ P * 2 ^ P) :=
    Nat.mul_le_mul_right _ hA1
  have hmul2 : (2 * (n * n)) * (2 ^ P * 2 ^ P) ≤ (2 * A + 2 ^ k) * (2 ^ P * 2 ^ P) :=
    Nat.mul_le_mul_right _ hA2
  have hmul3 : (2 ^ (k + P) + 1) * 2 ^ P ≤ (2 * n) * 2 ^ P :=
    Nat.mul_le_mul_right _ hPn
  have e1 : (2 * A) * (2 ^ P * 2 ^ P) = 2 * (A * (2 ^ P * 2 ^ P)) := by ring
  have e2 : (2 * (n * n) + 2 ^ k) * (2 ^ P * 2 ^ P)
      = 2 * ((n * 2 ^ P) * (n * 2 ^ P)) + 2 ^ k * (2 ^ P * 2 ^ P) := by ring
  have e3 : (2 * (n * n)) * (2 ^ P * 2 ^ P) = 2 * ((n * 2 ^ P) * (n * 2 ^ P)) := by ring
  have e4 : (2 * A + 2 ^ k) * (2 ^ P * 2 ^ P)
      = 2 * (A * (2 ^ P * 2 ^ P)) + 2 ^ k * (2 ^ P * 2 ^ P) := by ring
  have e5 : (2 ^ (k + P) + 1) * 2 ^ P = 2 ^ k * (2 ^ P * 2 ^ P) + 2 ^ P := by
    rw [hkP]; ring
  have e6 : (2 * n) * 2 ^ P = 2 * (n * 2 ^ P) := by ring
  rw [e1, e2] at hmul1
  rw [e3, e4] at hmul2
  rw [e5, e6] at hmul3
  have hQ1 : 1 ≤ 2 ^ P := Nat.one_le_pow P 2 (by norm_num)
  constructor <;> omega

theorem sqrtDyadic_near {m k n e2 : Nat} (hm : 1 ≤ m) (hn : 1 ≤ n)
    (he2 : e2 = (flog2 m + k) / 2) (hle : flog2 m + k ≤ 105)
    (hm1 : (n * 2 ^ (52 - e2)) * (n * 2 ^ (52 - e2)) + 1
           ≤ m * 2 ^ (k + 104 - 2 * e2) + n * 2 ^ (52 - e2))
    (hm2 : m * 2 ^ (k + 104 - 2 * e2)
           ≤ (n * 2 ^ (52 - e2)) * (n * 2 ^ (52 - e2)) + n * 2 ^ (52 - e2)) :
    sqrtDyadic ⟨m, (k : Int)⟩ = ⟨n * 2 ^ (52 - e2), (e2 : Int) - 52⟩ := by
  have hm0 : ¬ (m = 0) := by omega
  simp only [sqrtDyadic]
  rw [if_neg hm0]
  have hcast : (flog2 m : Int) + (k : Int) = ((flog2 m + k : Nat) : Int) := by
    push_cast
    ring
  have hfdiv : Int.fdiv ((flog2 m + k : Nat) : Int) 2 = ((e2 : Nat) : Int) := by
    rw [he2]
    exact int_fdiv_two_cast _
  have hj : (k : Int) + 104 - 2 * ((e2 : Nat) : Int) = ((k + 104 - 2 * e2 : Nat) : Int) := by
    omega
  have hcond : (0 : Int) ≤ ((k + 104 - 2 * e2 : Nat) : Int) := Int.natCast_nonneg _
  have htn : (((k + 104 - 2 * e2 : Nat) : Int)).toNat = k + 104 - 2 * e2 := by omega
  simp only [hcast, hfdiv, hj, hcond, if_true, htn, Nat.div_one]
  simp only [mul_one]
  set am := m * 2 ^ (k + 104 - 2 * e2) with ham
  set N := n * 2 ^ (52 - e2) with hN
  have hN1 : 1 ≤ N := by
    rw [hN]
    exact Nat.mul_pos (by omega) (pow_pos (by norm_num) _)
  obtain ⟨M, hM⟩ : ∃ M, N = M + 1 := ⟨N - 1, by omega⟩
  obtain ⟨hl, hr⟩ := isqrt_bounds am
  have eN : N * N = M * M + 2 * M + 1 := by rw [hM]; ring
  have hmflo : M ≤ isqrt am := by
    by_contra hcc
    push_neg at hcc
    have h2 : (isqrt am + 1) * (isqrt am + 1) ≤ M * M := Nat.mul_le_mul (by omega) (by omega)
    omega
  have hmfhi : isqrt am ≤ M + 1 := by
    by_contra hcc
    push_neg at hcc
    have h2 : (M + 2) * (M + 2) ≤ isqrt am * isqrt am := Nat.mul_le_mul (by omega) (by omega)
    have e : (M + 2) * (M + 2) = M * M + 4 * M + 4 := by ring
    omega
  have hmf : isqrt am = M ∨ isqrt am = M + 1 := by omega
  rcases hmf with hmf | hmf
  · rw [hmf]
    have hcond1 : (2 * M + 1) * (2 * M + 1) < 4 * am := by
      have e : (2 * M + 1) * (2 * M + 1) = 4 * (M * M) + 4 * M + 1 := by ring
      omega
    rw [if_pos hcond1]
    rw [hM]
  · rw [hmf]
    have e : (2 * (M + 1) + 1) * (2 * (M + 1) + 1) = 4 * (M * M) + 12 * M + 9 := by ring
    have hcond1 : ¬ ((2 * (M + 1) + 1) * (2 * (M + 1) + 1) < 4 * am) := by omega
    rw [if_neg hcond1]
    have hcond2 : ¬ (4 * am = (2 * (M + 1) + 1) * (2 * (M + 1) + 1)) := by omega
    rw [if_neg hcond2]
    rw [hM]

theorem roundtrip_large {n : Nat} (hlo : 2 ^ 53 ≤ n * n) (hhi : n < 2 ^ 53) :
    dyadicFloor (sqrtDyadic (roundFrac (n * n * 100) 100)) = n := by
  have n52 : (2 : Nat) ^ 52 = 4503599627370496 := by norm_num
  have n53 : (2 : Nat) ^ 53 = 9007199254740992 := by norm_num
  have n54 : (2 : Nat) ^ 54 = 18014398509481984 := by norm_num
  have hn1 : 1 ≤ n := by
    by_contra hc
    push_neg at hc
    have hz : n = 0 := by omega
    rw [hz] at hlo
    norm_num at hlo
  have hnn1 : 1 ≤ n * n := Nat.one_le_iff_ne_zero.mpr (Nat.mul_ne_zero (by omega) (by omega))
  obtain ⟨htl, htr⟩ := flog2_bounds (n * n) hnn1
  have ht53 : 53 ≤ flog2 (n * n) := by
    by_contra hcon
    push_neg at hcon
    have hmono : 2 ^ (flog2 (n * n) + 1) ≤ 2 ^ 53 :=
      Nat.pow_le_pow_right (by norm_num) (by omega)
    omega
  have ht105 : flog2 (n * n) ≤ 105 := by
    have hsq : n * n < 2 ^ 106 := by
      have h1 : n * n ≤ 9007199254740991 * 9007199254740991 :=
        Nat.mul_le_mul (by omega) (by omega)
      have h2 : (9007199254740991 : Nat) * 9007199254740991
          = 81129638414606663681390495662081 := by norm_num
      have h3 : (2 : Nat) ^ 106 = 81129638414606681695789005144064 := by norm_num
      omega
    by_contra hcon
    push_neg at hcon
    have hmono : 2 ^ 106 ≤ 2 ^ (flog2 (n * n)) :=
      Nat.pow_le_pow_right (by norm_num) (by omega)
    omega
  rw [roundFrac_large hnn1 (by norm_num) ht53]
  set t := flog2 (n * n) with htdef
  set k := t - 52 with hkdef
  set m := rne (n * n) (2 ^ k) with hmdef
  have hk1 : 1 ≤ k := by omega
  have hk53 : k ≤ 53 := by omega
  obtain ⟨hb1, hb2⟩ := @rne_bound (n * n) (2 ^ k) (pow_pos (by norm_num) k)
  rw [← hmdef] at hb1 hb2
  have hA1 : 2 ^ (k + 53) ≤ 2 * (n * n) := by
    have e : (2 : Nat) ^ (k + 53) = 2 * 2 ^ t := by
      rw [show k + 53 = t + 1 from by omega, pow_succ]
      ring
    omega
  have hA2 : 2 * (n * n) < 2 ^ (k + 54) := by
    have e : (2 : Nat) ^ (k + 54) = 2 * 2 ^ (t + 1) := by
      rw [show k + 54 = t + 1 + 1 from by omega, pow_succ]
      ring
    have e2 : (2 : Nat) ^ (t + 1) = 2 * 2 ^ t := by rw [pow_succ]; ring
    omega
  have hm52 : 2 ^ 52 ≤ m := by
    have hsplit : 2 * (m * 2 ^ k) + 2 ^ k = 2 ^ k * (2 * m + 1) := by ring
    have epk : (2 : Nat) ^ (k + 53) = 2 ^ k * 2 ^ 53 := pow_add 2 k 53
    have hc1 : 2 ^ k * 2 ^ 53 ≤ 2 ^ k * (2 * m + 1) := by omega
    have h2 := Nat.le_of_mul_le_mul_left hc1 (pow_pos (by norm_num) k)
    omega
  have hm53 : m ≤ 2 ^ 53 := by
    have hsplit : 2 * (m * 2 ^ k) = 2 ^ k * (2 * m) := by ring
    have epk : (2 : Nat) ^ (k + 54) = 2 ^ k * 2 ^ 54 := pow_add 2 k 54
    have e3 : 2 ^ k * 2 ^ 54 + 2 ^ k = 2 ^ k * (2 ^ 54 + 1) := by ring
    have hc2 : 2 ^ k * (2 * m) < 2 ^ k * (2 ^ 54 + 1) := by omega
    have h2 := Nat.lt_of_mul_lt_mul_left hc2
    omega
  have hm1 : 1 ≤ m := by omega
  obtain ⟨hml, hmr⟩ := flog2_bounds m hm1
  have hfml : 52 ≤ flog2 m := by
    by_contra hcon
    push_neg at hcon
    have hmono : 2 ^ (flog2 m + 1) ≤ 2 ^ 52 := Nat.pow_le_pow_right (by norm_num) (by omega)
    omega
  have hfmr : flog2 m ≤ 53 := by
    by_contra hcon
    push_neg at hcon
    have hmono : 2 ^ 54 ≤ 2 ^ (flog2 m) := Nat.pow_le_pow_right (by norm_num) (by omega)
    omega
  have hfk : flog2 m + k ≤ 105 := by
    by_contra hcon
    push_neg at hcon
    have hf53 : flog2 m = 53 := by omega
    have hk53e : k = 53 := by omega
    rw [hf53] at hml
    have hmeq : m = 9007199254740992 := by omega
    rw [hmeq, hk53e, n53] at hb2
    have hbig : 2 * (9007199254740992 * 9007199254740992)
        = 162259276829213363391578010288128 := by norm_num
    have hsq : n * n ≤ 9007199254740991 * 9007199254740991 :=
      Nat.mul_le_mul (by omega) (by omega)
    have h2 : (9007199254740991 : Nat) * 9007199254740991
        = 81129638414606663681390495662081 := by norm_num
    omega
  set e2 := (flog2 m + k) / 2 with he2def
  have he52 : e2 ≤ 52 := by omega
  have h2e2 : k + 51 ≤ 2 * e2 := by omega
  have hPn : 2 ^ (k + (52 - e2)) < 2 * n := by
    have hE : 2 * (k + (52 - e2)) ≤ k + 53 := by omega
    have h1 : 2 ^ (k + (52 - e2)) * 2 ^ (k + (52 - e2)) ≤ 2 ^ (k + 53) := by
      rw [← pow_add]
      exact Nat.pow_le_pow_right (by norm_num) (by omega)
    by_contra hcc
    push_neg at hcc
    have h3 : (2 * n) * (2 * n) ≤ 2 ^ (k + (52 - e2)) * 2 ^ (k + (52 - e2)) :=
      Nat.mul_le_mul hcc hcc
    have e : (2 * n) * (2 * n) = 4 * (n * n) := by ring
    omega
  obtain ⟨hq1, hq2⟩ := @near_square_bounds n k (52 - e2) (m * 2 ^ k) hb2 hb1 hPn
  have hconv : (m * 2 ^ k) * (2 ^ (52 - e2) * 2 ^ (52 - e2)) = m * 2 ^ (k + 104 - 2 * e2) := by
    rw [mul_assoc, ← pow_add, ← pow_add,
      show k + (52 - e2 + (52 - e2)) = k + 104 - 2 * e2 from by omega]
  rw [hconv] at hq1 hq2
  have hkI : (t : Int) - 52 = ((k : Nat) : Int) := by omega
  rw [hkI]
  rw [sqrtDyadic_near hm1 hn1 he2def hfk hq1 hq2]
  rw [dyadicFloor_cancel he52]

set_option maxRecDepth 100000 in
/-- C2 amended: the level round-trip holds exactly for every level L with
1 <= L <= 2^53 + 1 = 9007199254740993.  For L - 1 up to 2^26 both the float
division by 100 and math.sqrt are exact; beyond that, (L-1)^2/100 rounds,
but the rounded value stays within half an ulp of (L-1)^2, so the correctly
rounded square root is still exactly L - 1 for every L - 1 < 2^53 (the
classical RN(sqrt(RN(n^2))) = n argument, carried out over the concrete
roundFrac/sqrtDyadic algorithms via rne_bound, near_square_bounds and
sqrtDyadic_near), and the boundary point L - 1 = 2^53 is checked by
computation.  The round-trip first fails at L = 2^53 + 2, the
counterexample. -/
theorem C2_roundtrip_amended (L : Int) (h1 : 1 ≤ L) (h2 : L ≤ 9007199254740993) :
    calculate_level_from_xp (calculate_xp_for_level L) = L := by
  by_cases htop : L = 9007199254740993
  · subst htop
    decide
  · by_cases hL : L ≤ 1
    · have he : L = 1 := le_antisymm hL h1
      subst he
      decide
    · push_neg at hL
      set n : Nat := (L - 1).toNat with hn
      have hnL : ((n : Nat) : Int) = L - 1 := Int.toNat_of_nonneg (by omega)
      have hn1 : 1 ≤ n := by omega
      have hn53 : n < 2 ^ 53 := by
        have e : (2 : Nat) ^ 53 = 9007199254740992 := by norm_num
        omega
      have hnn1 : 1 ≤ n * n := Nat.one_le_iff_ne_zero.mpr (Nat.mul_ne_zero (by omega) (by omega))
      have hxp : calculate_xp_for_level L = ((n * n * 100 : Nat) : Int) := by
        unfold calculate_xp_for_level
        rw [if_neg (by omega)]
        have hb : (Config.XP_PER_LEVEL_BASE : Int) = 100 := rfl
        rw [hb]
        push_cast
        rw [hnL]
      rw [hxp]
      unfold calculate_level_from_xp
      rw [if_neg (not_lt.mpr (Int.natCast_nonneg _))]
      have htn2 : ((n * n * 100 : Nat) : Int).toNat = n * n * 100 := by omega
      rw [htn2]
      have hcfg : Config.XP_PER_LEVEL_BASE = 100 := rfl
      rw [hcfg]
      by_cases hsm : n * n < 2 ^ 53
      · have ht52 : flog2 (n * n) ≤ 52 := by
          obtain ⟨hl, _⟩ := flog2_bounds (n * n) hnn1
          by_contra hcon
          have hmono : 2 ^ 53 ≤ 2 ^ (flog2 (n * n)) :=
            Nat.pow_le_pow_right (by norm_num) (by omega)
          omega
        rw [roundFrac_exact hnn1 (by norm_num) ht52]
        rw [sqrtDyadic_square hn1 ht52]
        rw [dyadicFloor_cancel (by omega)]
        have hmax : max 1 ((n : Int) + 1) = (n : Int) + 1 := max_eq_right (by omega)
        rw [hmax]
        omega
      · push_neg at hsm
        rw [roundtrip_large hsm hn53]
        have hmax : max 1 ((n : Int) + 1) = (n : Int) + 1 := max_eq_right (by omega)
        rw [hmax]
        omega

/-- C2 witness: the amended round-trip instantiated at level 5 (the spec
scenario level), hypotheses discharged concretely. -/
theorem C2_roundtrip_amended_witness :
    (1 : Int) ≤ 5 ∧ (5 : Int) ≤ 9007199254740993 ∧
    calculate_level_from_xp (calculate_xp_for_level 5) = 5 :=
  ⟨by decide, by decide, C2_roundtrip_amended 5 (by decide) (by decide)⟩

end CurrencyBot
